import Mathlib

/-!
A verification development for the tree-sitter TRAP extractor
(`extractor/src/extractor.rs`).  The Rust source is shallowly embedded:
pure functions become Lean functions, the `Visitor` struct becomes an
explicit state record threaded through the traversal, `println!`
diagnostics become a list of structured diagnostic records, and panics
(`expect`) become `Except.error`.
-/

set_option maxRecDepth 10000

namespace Trap

/-- Modelled from the spec: `TypeName {kind: string, named: bool}` from the
`nodes_types` module (not part of the extractor source file); identifies a
concrete syntax-tree node shape, compared by structural equality. -/
structure TypeName where
  kind : String
  named : Bool
deriving DecidableEq, Repr

/-- Modelled from the spec: `Storage`, a tagged union from the `nodes_types`
module.  `column` stores a single child inline in the row; `table` stores
children as separate child-link facts tying them to the parent at a field
index. -/
inductive Storage where
  | column : Storage
  | table (parent : TypeName) (index : Nat) : Storage
deriving DecidableEq, Repr

/-- Modelled from the spec: `Field {name: optional string, types: set of
TypeName, storage: Storage}` from the `nodes_types` module.  The member set
is carried as a list (the Rust `BTreeSet` is used only for `contains` and
iteration, so a list is an adequate model). -/
structure Field where
  name : Option String
  types : List TypeName
  storage : Storage
deriving DecidableEq, Repr

/-- Modelled from the spec: `Entry` (schema item), a tagged union from the
`nodes_types` module: `Table` node kinds become relational rows, `Union`
node kinds are aliases for a set of member kinds. -/
inductive Entry where
  | table (type_name : TypeName) (fields : List Field) : Entry
  | union (type_name : TypeName) (members : List TypeName) : Entry
deriving DecidableEq, Repr

/-- `Label`: identifiers `#N` (normal) and `#N_loc` (location), carrying the
`i32` counter value. -/
inductive Label where
  | normal (n : Int) : Label
  | location (n : Int) : Label
deriving DecidableEq, Repr

/-- `Arg`: an untyped argument of a TRAP entry. -/
inductive Arg where
  | label (l : Label) : Arg
  | int (n : Nat) : Arg
  | str (s : String) : Arg
deriving DecidableEq, Repr

/-- `TrapEntry`: one emitted fact.  `Index` from the source is inlined as a
`Nat` (it is a plain `usize` newtype). -/
inductive TrapEntry where
  | new (l : Label) : TrapEntry
  | definition (table : String) (id : Label) (args : List Arg) (loc : Label) : TrapEntry
  | childOf (pname : String) (id : Label) (fname : String) (idx : Nat) (p : Label) : TrapEntry
  | located (args : List Arg) : TrapEntry
  | comment (line : String) : TrapEntry
deriving DecidableEq, Repr

/-- One structured diagnostic record, standing for one `println!` line of the
form `error: <path>:<row>: <message>` in the source.  The record keeps the
data interpolated into the message (constructor choice = message kind). -/
inductive Diag where
  | parseError (path : String) (row : Nat) : Diag
  | missingToken (path : String) (row : Nat) (kind : String) : Diag
  | unknownTableType (path : String) (row : Nat) (kind : String) : Diag
  | typeMismatch (path : String) (row : Nat) (kind : String) (fld : String) : Diag
  | unknownField (path : String) (row : Nat) (kind : String) (fld : String) : Diag
  | missingValue (path : String) (row : Nat) (kind : String) (fld : String) : Diag
  | tooManyValues (path : String) (row : Nat) (kind : String) (fld : String) : Diag
deriving DecidableEq, Repr

/-- A (row, column) position, as exposed by tree-sitter nodes. -/
structure Pos where
  row : Nat
  col : Nat
deriving DecidableEq, Repr

/-- A syntax-tree node, the interface of `tree_sitter::Node` that the
extractor consumes: kind name, named flag, error/missing/extra status, byte
range, start/end positions, the field name under which the cursor reached it
(`None` for the root), and the ordered children. -/
inductive SNode where
  | mk (kind : String) (named : Bool)
       (isErr isMiss isExt : Bool)
       (startByte endByte : Nat)
       (startPos endPos : Pos)
       (fieldName : Option String)
       (children : List SNode) : SNode

def SNode.kind : SNode → String
  | .mk k _ _ _ _ _ _ _ _ _ _ => k

def SNode.named : SNode → Bool
  | .mk _ nm _ _ _ _ _ _ _ _ _ => nm

def SNode.isErr : SNode → Bool
  | .mk _ _ er _ _ _ _ _ _ _ _ => er

def SNode.isMiss : SNode → Bool
  | .mk _ _ _ mi _ _ _ _ _ _ _ => mi

def SNode.isExt : SNode → Bool
  | .mk _ _ _ _ ex _ _ _ _ _ _ => ex

def SNode.startByte : SNode → Nat
  | .mk _ _ _ _ _ sb _ _ _ _ _ => sb

def SNode.endByte : SNode → Nat
  | .mk _ _ _ _ _ _ eb _ _ _ _ => eb

def SNode.startPos : SNode → Pos
  | .mk _ _ _ _ _ _ _ sp _ _ _ => sp

def SNode.endPos : SNode → Pos
  | .mk _ _ _ _ _ _ _ _ ep _ _ => ep

def SNode.fieldName : SNode → Option String
  | .mk _ _ _ _ _ _ _ _ _ fn _ => fn

def SNode.children : SNode → List SNode
  | .mk _ _ _ _ _ _ _ _ _ _ cs => cs

/-- The `TypeName` of a node, as the extractor builds it for lookups:
`TypeName { kind: node.kind().to_owned(), named: node.is_named() }`. -/
def SNode.typeName (n : SNode) : TypeName :=
  { kind := n.kind, named := n.named }

/-- Association-list insertion with overwrite, modelling
`BTreeMap::insert` (a later insert for the same key replaces the value;
only lookup is ever performed on these maps, so ordering is irrelevant). -/
def insertA {K V : Type} [DecidableEq K] (k : K) (v : V) : List (K × V) → List (K × V)
  | [] => [(k, v)]
  | (k', v') :: rest => if k = k' then (k, v) :: rest else (k', v') :: insertA k v rest

/-- Association-list lookup, modelling `BTreeMap::get`. -/
def lookupA {K V : Type} [DecidableEq K] (k : K) : List (K × V) → Option V
  | [] => none
  | (k', v') :: rest => if k = k' then some v' else lookupA k rest

/-- `build_schema_lookup`: the map from type name to its `Table` schema
entry; `Union` entries are skipped. -/
def build_schema_lookup (schema : List Entry) : List (TypeName × Entry) :=
  schema.foldl
    (fun map entry =>
      match entry with
      | Entry.table type_name _ => insertA type_name entry map
      | Entry.union _ _ => map)
    []

/-- `build_union_type_lookup`: the map from a union type name to its direct
member set. -/
def build_union_type_lookup (schema : List Entry) : List (TypeName × List TypeName) :=
  schema.foldl
    (fun map entry =>
      match entry with
      | Entry.table _ _ => map
      | Entry.union type_name members => insertA type_name members map)
    []

/-- `Visitor::type_matches`, with explicit fuel.  The Rust function recurses
through the union graph with no termination guard (the schema is assumed
acyclic); the fuel only bounds the recursion depth, and
`type_matches_chain_bound` below shows that depth `u.length + 1` decides
every reachable membership, so `type_matchesB` (fixed fuel `u.length + 1`)
computes the same answer the Rust function returns whenever it terminates. -/
def type_matchesF (u : List (TypeName × List TypeName)) :
    Nat → TypeName → List TypeName → Bool
  | 0, _, _ => false
  | fuel + 1, tp, types =>
    decide (tp ∈ types) ||
      types.any fun other =>
        match lookupA other u with
        | some ms => type_matchesF u fuel tp ms
        | none => false

/-- `Visitor::type_matches` at the always-sufficient fuel. -/
def type_matchesB (u : List (TypeName × List TypeName))
    (tp : TypeName) (types : List TypeName) : Bool :=
  type_matchesF u (u.length + 1) tp types

/-- The specification's reading of the type resolver, as a least fixed
point: `matches(candidate, allowed)` holds iff `candidate ∈ allowed`, or
some union member of `allowed` recursively matches. -/
inductive MatchesSpec (u : List (TypeName × List TypeName)) :
    TypeName → List TypeName → Prop
  | mem {tp : TypeName} {types : List TypeName} :
      tp ∈ types → MatchesSpec u tp types
  | viaUnion {tp : TypeName} {types : List TypeName} (other : TypeName)
      (ms : List TypeName) :
      other ∈ types → lookupA other u = some ms → MatchesSpec u tp ms →
      MatchesSpec u tp types

/-- `RESERVED_KEYWORDS` from the source. -/
def RESERVED_KEYWORDS : List String :=
  ["boolean", "case", "date", "float", "int", "key", "of", "order", "ref",
   "string", "subtype", "type", "unique", "varchar"]

/-- The per-character step of `escape_name`'s main loop.  The catch-all arm
is `c.to_lowercase()`; Lean's `Char.toLower` agrees with it on ASCII (all
grammar kind names and field names are ASCII). -/
def escapeChar (c : Char) : String :=
  match c with
  | '{' => "lbrace"
  | '}' => "rbrace"
  | '<' => "langle"
  | '>' => "rangle"
  | '[' => "lbracket"
  | ']' => "rbracket"
  | '(' => "lparen"
  | ')' => "rparen"
  | '|' => "pipe"
  | '=' => "equal"
  | '~' => "tilde"
  | '?' => "question"
  | '`' => "backtick"
  | '^' => "caret"
  | '!' => "bang"
  | '#' => "hash"
  | '%' => "percent"
  | '&' => "ampersand"
  | '.' => "dot"
  | ',' => "comma"
  | '/' => "slash"
  | ':' => "colon"
  | ';' => "semicolon"
  | '"' => "dquote"
  | '*' => "star"
  | '+' => "plus"
  | '-' => "minus"
  | '@' => "at"
  | _ => String.singleton c.toLower

/-- `escape_name`: escapes a raw name to a valid QL identifier — a leading
underscore is prefixed with the literal `underscore`, every character is
substituted or lower-cased, and a result equal to a reserved keyword gets a
trailing `__`. -/
def escape_name (name : String) : String :=
  let pre : String :=
    match name.data with
    | c :: _ => if c = '_' then "underscore" else ""
    | [] => ""
  let body : String := name.data.foldl (fun acc c => acc ++ escapeChar c) ""
  let result := pre ++ body
  if RESERVED_KEYWORDS.contains result then result ++ "__" else result

/-- `node_type_name`: the unescaped table-name text for a (kind, named)
pair. -/
def node_type_name (kind : String) (named : Bool) : String :=
  if named then kind else kind ++ "_unnamed"

/-- `impl fmt::Display for Label`. -/
def Label.render : Label → String
  | .normal x => "#" ++ toString x
  | .location x => "#" ++ toString x ++ "_loc"

/-- `impl fmt::Display for Arg`; strings are double-quoted with internal
quotes doubled. -/
def Arg.render : Arg → String
  | .label x => x.render
  | .int x => toString x
  | .str x => "\"" ++ (x.replace "\"" "\"\"") ++ "\""

/-- `impl fmt::Display for TrapEntry`.  The `located` arm of the source
unwraps the first six arguments (and would panic on fewer; `location_for`
always supplies exactly six). -/
def TrapEntry.render : TrapEntry → String
  | .new id => id.render ++ " = *"
  | .definition n id args loc =>
    let args_str := args.foldl (fun acc a => acc ++ a.render ++ ", ") ""
    escape_name (n ++ "_def") ++ "(" ++ id.render ++ ", " ++ args_str ++ loc.render ++ ")"
  | .childOf pname id fname idx p =>
    escape_name (pname ++ "_" ++ fname) ++ "(" ++ id.render ++ ", " ++ toString idx
      ++ ", " ++ p.render ++ ")"
  | .located args =>
    match args with
    | [a0, a1, a2, a3, a4, a5] =>
      "location(" ++ a0.render ++ ", " ++ a1.render ++ ", " ++ a2.render ++ ", "
        ++ a3.render ++ ", " ++ a4.render ++ ", " ++ a5.render ++ ")"
    | _ => ""
  | .comment line => "// " ++ line

/-- UTF-8 decoding of a byte list, mirroring `std::str::from_utf8`: rejects
stray continuation bytes, overlong encodings, surrogate code points and
values above `0x10FFFF`. -/
def decodeUtf8 : List Nat → Option (List Char)
  | [] => some []
  | b1 :: rest =>
    if b1 < 0x80 then
      match decodeUtf8 rest with
      | some cs => some (Char.ofNat b1 :: cs)
      | none => none
    else if b1 < 0xC2 then
      none
    else if b1 < 0xE0 then
      match rest with
      | b2 :: rest2 =>
        if 0x80 ≤ b2 && b2 < 0xC0 then
          match decodeUtf8 rest2 with
          | some cs => some (Char.ofNat ((b1 - 0xC0) * 0x40 + (b2 - 0x80)) :: cs)
          | none => none
        else none
      | [] => none
    else if b1 < 0xF0 then
      match rest with
      | b2 :: b3 :: rest3 =>
        let lo2 := if b1 = 0xE0 then 0xA0 else 0x80
        let hi2 := if b1 = 0xED then 0xA0 else 0xC0
        if lo2 ≤ b2 && b2 < hi2 && 0x80 ≤ b3 && b3 < 0xC0 then
          match decodeUtf8 rest3 with
          | some cs =>
            some (Char.ofNat ((b1 - 0xE0) * 0x1000 + (b2 - 0x80) * 0x40 + (b3 - 0x80)) :: cs)
          | none => none
        else none
      | _ => none
    else if b1 < 0xF5 then
      match rest with
      | b2 :: b3 :: b4 :: rest4 =>
        let lo2 := if b1 = 0xF0 then 0x90 else 0x80
        let hi2 := if b1 = 0xF4 then 0x90 else 0xC0
        if lo2 ≤ b2 && b2 < hi2 && 0x80 ≤ b3 && b3 < 0xC0 && 0x80 ≤ b4 && b4 < 0xC0 then
          match decodeUtf8 rest4 with
          | some cs =>
            some (Char.ofNat ((b1 - 0xF0) * 0x40000 + (b2 - 0x80) * 0x1000
              + (b3 - 0x80) * 0x40 + (b4 - 0x80)) :: cs)
          | none => none
        else none
      | _ => none
    else none

/-- The `Visitor` struct: path and source are read-only inputs, the rest is
the mutable traversal state.  The stack's head is its top (`Vec::push` /
`Vec::pop` act on the end of the Rust vector). -/
structure VState where
  path : String
  source : List Nat
  trap_output : List TrapEntry
  counter : Int
  tables : List (TypeName × Entry)
  union_types : List (TypeName × List TypeName)
  stack : List (List (Option String × Label × TypeName))
  diags : List Diag
deriving Repr

/-- The `self.counter += 1` step on the `i32` counter.  Rust integer
overflow is a program error (panic); it is modelled as `Except.error`, so a
completed extraction never wrapped. -/
def inc_i32 (c : Int) : Except String Int :=
  if -(2 ^ 31) ≤ c + 1 && c + 1 < 2 ^ 31 then Except.ok (c + 1)
  else Except.error "attempt to add with overflow"

/-- `Visitor::enter_node`: error and missing nodes are diagnosed and not
descended into; extra nodes are silently skipped; otherwise a fresh
accumulator frame is pushed and the traversal descends. -/
def enter_node (node : SNode) (st : VState) : Bool × VState :=
  if node.isErr then
    (false, { st with diags := st.diags ++ [Diag.parseError st.path node.startPos.row] })
  else if node.isMiss then
    (false,
     { st with diags := st.diags ++ [Diag.missingToken st.path node.startPos.row node.kind] })
  else if node.isExt then
    (false, st)
  else
    (true, { st with stack := [] :: st.stack })

/-- `sliced_source_arg`: the source-text slice covering the node's byte
range, decoded as UTF-8.  An out-of-range slice or a decoding failure is a
panic in the source, modelled as `Except.error`. -/
def sliced_source_arg (source : List Nat) (n : SNode) : Except String Arg :=
  if n.startByte ≤ n.endByte && n.endByte ≤ source.length then
    match decodeUtf8 ((source.drop n.startByte).take (n.endByte - n.startByte)) with
    | some cs => Except.ok (Arg.str (String.mk cs))
    | none => Except.error "Failed to decode string"
  else Except.error "byte range out of bounds"

/-- `location_for`: the `Located` TRAP entry for a node's span. -/
def location_for (fp : String) (label : Label) (n : SNode) : TrapEntry :=
  TrapEntry.located
    [Arg.label label, Arg.str fp, Arg.int n.startPos.row, Arg.int n.startPos.col,
     Arg.int n.endPos.row, Arg.int n.endPos.col]

/-- The bucket map used by `complex_node`: keys are field names
(`Option<String>`), values are the declared field together with the labels
accumulated for it. -/
abbrev BucketMap := List (Option String × (Field × List Label))

/-- One step of phase 1 of `complex_node` (the `for (child_field, child_id,
child_type) in child_nodes` loop): find the bucket matching the child's
field name, type-check the child and append it, or report a diagnostic and
drop it. -/
def bucketStep (path : String) (u : List (TypeName × List TypeName)) (node : SNode)
    (acc : BucketMap × List Diag) (child : Option String × Label × TypeName) :
    BucketMap × List Diag :=
  let (m, ds) := acc
  let (child_field, child_id, child_type) := child
  match lookupA child_field m with
  | some (field, values) =>
    if type_matchesB u child_type field.types then
      (insertA child_field (field, values ++ [child_id]) m, ds)
    else if field.name.isSome then
      (m, ds ++ [Diag.typeMismatch path node.startPos.row node.kind
        (child_field.getD "child")])
    else (m, ds)
  | none =>
    if child_field.isSome || child_type.named then
      (m, ds ++ [Diag.unknownField path node.startPos.row node.kind
        (child_field.getD "child")])
    else (m, ds)

/-- Phase 1 of `complex_node`: distribute the accumulated children into the
buckets, type-checking each one; returns the filled map and the diagnostics
printed along the way. -/
def fillBuckets (path : String) (u : List (TypeName × List TypeName)) (node : SNode)
    (children : List (Option String × Label × TypeName)) (map0 : BucketMap) :
    BucketMap × List Diag :=
  children.foldl (bucketStep path u node) (map0, [])

/-- The ids accumulated for a field, read back from the bucket map
(`map.get(&field.name).unwrap().1`).  The `unwrap` of the source cannot
fail because phase 0 seeds a bucket for every declared field name; the
unreachable arm is modelled with an empty bucket. -/
def bucketIds (m : BucketMap) (f : Field) : List Label :=
  match lookupA f.name m with
  | some fv => fv.2
  | none => []

/-- One step of phase 2 of `complex_node` (the `for field in fields` loop):
a `Column` field demands exactly one bucketed id and contributes it as a
reference argument (otherwise validation fails with a missing-value or
too-many-values diagnostic); a `Table` field emits one child-link entry per
bucketed id. -/
def fieldStep (node : SNode) (parent_id : Label) (m : BucketMap)
    (acc : List Arg × Bool × VState) (field : Field) : List Arg × Bool × VState :=
  let (args, is_valid, s) := acc
  let child_ids := bucketIds m field
  match field.storage with
  | Storage.column =>
    match child_ids with
    | [child_id] => (args ++ [Arg.label child_id], is_valid, s)
    | [] =>
      (args, false,
       { s with diags := s.diags ++ [Diag.missingValue s.path node.startPos.row
          node.kind (field.name.getD "child")] })
    | _ =>
      (args, false,
       { s with diags := s.diags ++ [Diag.tooManyValues s.path node.startPos.row
          node.kind (field.name.getD "child")] })
  | Storage.table parent index =>
    (args, is_valid,
     { s with trap_output := s.trap_output ++ child_ids.map (fun child_id =>
        TrapEntry.childOf (node_type_name parent.kind parent.named) parent_id
          (field.name.getD "child") index child_id) })

/-- Phase 0 of `complex_node`: one empty bucket per declared field, keyed
by field name (later duplicates overwrite, as `BTreeMap::insert` does). -/
def map0Of (fields : List Field) : BucketMap :=
  fields.foldl (fun m field => insertA field.name (field, []) m) []

/-- `Visitor::complex_node`: validate the accumulated children of a node
against its declared fields.  Returns the validated `Column` argument list
(`none` on an arity failure) and the updated state (child-link entries and
diagnostics appended). -/
def complex_node (st : VState) (node : SNode) (fields : List Field)
    (child_nodes : List (Option String × Label × TypeName)) (parent_id : Label) :
    Option (List Arg) × VState :=
  let (map1, diags1) := fillBuckets st.path st.union_types node child_nodes (map0Of fields)
  let st1 := { st with diags := st.diags ++ diags1 }
  let res := fields.foldl (fieldStep node parent_id map1) (([] : List Arg), true, st1)
  let (args, is_valid, st2) := res
  (if is_valid then some args else none, st2)

/-- `Visitor::leave_node`: finalize a node — pop its accumulator frame, look
up its schema table, allocate its labels, emit its facts, and contribute it
to its parent's frame. -/
def leave_node (field_name : Option String) (node : SNode) (st : VState) :
    Except String VState :=
  if node.isExt || node.isErr || node.isMiss then Except.ok st
  else
    match st.stack with
    | [] => Except.error "Vistor: empty stack"
    | child_nodes :: rest =>
      match lookupA node.typeName st.tables with
      | some (Entry.table _ fields) => do
        let counter ← inc_i32 st.counter
        let id := Label.normal counter
        let loc := Label.location counter
        let st1 := { st with
          counter := counter
          stack := rest
          trap_output := st.trap_output ++
            [TrapEntry.new id, TrapEntry.new loc, location_for st.path loc node] }
        let table_name := node_type_name node.kind node.named
        let argsAndSt ←
          if fields.isEmpty then do
            let arg ← sliced_source_arg st1.source node
            pure (some [arg], st1)
          else
            pure (complex_node st1 node fields child_nodes id)
        let (argsOpt, st2) := argsAndSt
        let st3 :=
          match argsOpt with
          | some args =>
            { st2 with trap_output := st2.trap_output ++
                [TrapEntry.definition table_name id args loc] }
          | none => st2
        let st4 :=
          match st3.stack with
          | parent :: rest2 =>
            { st3 with stack := (parent ++ [(field_name, id, node.typeName)]) :: rest2 }
          | [] => st3
        Except.ok st4
      | _ =>
        Except.ok { st with
          stack := rest
          diags := st.diags ++
            [Diag.unknownTableType st.path node.startPos.row node.kind] }

mutual

/-- One full enter/descend/leave cycle for a non-root node, the effect the
cursor loop of `traverse` has on each child subtree: enter the node, visit
its children when entering signalled descent, then leave it. -/
def visit (n : SNode) (st : VState) : Except String VState :=
  match n with
  | SNode.mk k nm er mi ex sb eb sp ep fn cs =>
    let node := SNode.mk k nm er mi ex sb eb sp ep fn cs
    let (desc, st1) := enter_node node st
    match (if desc then visitList cs st1 else Except.ok st1) with
    | Except.ok st2 => leave_node fn node st2
    | Except.error e => Except.error e

/-- Visit a list of sibling subtrees in order, stopping at the first
fatal error. -/
def visitList (ns : List SNode) (st : VState) : Except String VState :=
  match ns with
  | [] => Except.ok st
  | n :: rest =>
    match visit n st with
    | Except.ok st' => visitList rest st'
    | Except.error e => Except.error e

end

/-- `traverse`: the cursor loop.  The root is entered before the loop and
its enter result is discarded (`recurse` starts at `true` regardless), so
the root's children are visited even when entering the root signalled "do
not descend"; the root itself is then left once the cursor can move
neither to a sibling nor to a parent. -/
def traverse (root : SNode) (st : VState) : Except String VState :=
  let (_, st1) := enter_node root st
  match visitList root.children st1 with
  | Except.ok st2 => leave_node root.fieldName root st2
  | Except.error e => Except.error e

/-- The initial visitor state of `Extractor::extract` for one file. -/
def initState (path : String) (source : List Nat) (schema : List Entry) : VState :=
  { path := path
    source := source
    trap_output := [TrapEntry.comment ("Auto-generated TRAP file for " ++ path)]
    counter := -1
    tables := build_schema_lookup schema
    union_types := build_union_type_lookup schema
    stack := []
    diags := [] }

/-- `Extractor::extract`: run one traversal over the parsed tree and return
the accumulated TRAP entries (the `Program`). -/
def extract (path : String) (source : List Nat) (schema : List Entry)
    (tree : SNode) : Except String (List TrapEntry) :=
  match traverse tree (initState path source schema) with
  | Except.ok st => Except.ok st.trap_output
  | Except.error e => Except.error e

/-! ### Helper definitions used only to state and prove the theorems -/

/-- The escaping test set named by the spec: each listed punctuation
character, a name with a leading underscore, and every reserved word. -/
def escapeTestNames : List String :=
  ["\x7b", "\x7d", "<", ">", "[", "]", "(", ")", "|", "=", "~", "?", "`", "^",
   "!", "#", "%", "&", ".", ",", "/", ":", ";", "\"", "*", "+", "-", "@", "_name"]
  ++ RESERVED_KEYWORDS

/-- The labels a field's bucket ends up holding (proved below): the
accumulated children whose field name equals the field's name and whose
type satisfies the field's type set, in arrival order. -/
def columnBucket (u : List (TypeName × List TypeName))
    (children : List (Option String × Label × TypeName)) (f : Field) : List Label :=
  (children.filter fun c => decide (c.1 = f.name) && type_matchesB u c.2.2 f.types).map
    fun c => c.2.1

/-- Whether phase 2 of `complex_node` succeeds: every `Column`-storage
field's bucket holds exactly one id. -/
def fieldsValid (m : BucketMap) (fields : List Field) : Bool :=
  fields.all fun f =>
    match f.storage with
    | Storage.column => decide ((bucketIds m f).length = 1)
    | Storage.table _ _ => true

/-- The argument list phase 2 of `complex_node` accumulates: one reference
argument per `Column`-storage field whose bucket holds exactly one id, in
schema field order. -/
def fieldArgs (m : BucketMap) (fields : List Field) : List Arg :=
  fields.filterMap fun f =>
    match f.storage with
    | Storage.column =>
      match bucketIds m f with
      | [cid] => some (Arg.label cid)
      | _ => none
    | Storage.table _ _ => none

/-- The child-link entries phase 2 of `complex_node` emits: one per
bucketed id of each `Table`-storage field, in schema field order and bucket
order. -/
def fieldLinks (node : SNode) (parent_id : Label) (m : BucketMap)
    (fields : List Field) : List TrapEntry :=
  fields.flatMap fun f =>
    match f.storage with
    | Storage.table parent index =>
      (bucketIds m f).map fun child_id =>
        TrapEntry.childOf (node_type_name parent.kind parent.named) parent_id
          (f.name.getD "child") index child_id
    | Storage.column => []

/-- The arity diagnostics phase 2 of `complex_node` reports: one
missing-value or too-many-values diagnostic per `Column`-storage field
whose bucket does not hold exactly one id. -/
def fieldDiags (path : String) (node : SNode) (m : BucketMap)
    (fields : List Field) : List Diag :=
  fields.filterMap fun f =>
    match f.storage with
    | Storage.column =>
      match bucketIds m f with
      | [_] => none
      | [] => some (Diag.missingValue path node.startPos.row node.kind (f.name.getD "child"))
      | _ => some (Diag.tooManyValues path node.startPos.row node.kind (f.name.getD "child"))
    | Storage.table _ _ => none

/-- The final bucket map `complex_node` validates against. -/
def finalBuckets (st : VState) (node : SNode) (fields : List Field)
    (child_nodes : List (Option String × Label × TypeName)) : BucketMap :=
  (fillBuckets st.path st.union_types node child_nodes (map0Of fields)).1

/-- The counter values of the `NewId` entries for normal labels, in
emission order. -/
def newNormals (out : List TrapEntry) : List Int :=
  out.filterMap fun e =>
    match e with
    | TrapEntry.new (Label.normal i) => some i
    | _ => none

/-- The counter values of the `NewId` entries for location labels, in
emission order. -/
def newLocs (out : List TrapEntry) : List Int :=
  out.filterMap fun e =>
    match e with
    | TrapEntry.new (Label.location i) => some i
    | _ => none

/-- The counter values `c + 1, c + 2, ..., c + k`, the labels a run of `k`
allocations starting from counter value `c` hands out. -/
def labelRange (c : Int) : Nat → List Int
  | 0 => []
  | k + 1 => (c + 1) :: labelRange (c + 1) k

/-- Whether leaving an accepted node allocates a label pair: exactly when
its type name has a `Table` entry. -/
def leaveCount (tables : List (TypeName × Entry)) (node : SNode) : Nat :=
  match lookupA node.typeName tables with
  | some (Entry.table _ _) => 1
  | _ => 0

mutual

/-- How many nodes of a subtree allocate a label pair when the subtree is
visited: error/missing/extra subtrees are skipped entirely, and an accepted
node allocates exactly when its type name has a `Table` entry. -/
def emitCount (tables : List (TypeName × Entry)) (n : SNode) : Nat :=
  match n with
  | SNode.mk k nm er mi ex sb eb sp ep fn cs =>
    if er || mi || ex then 0
    else
      emitCountList tables cs +
        leaveCount tables (SNode.mk k nm er mi ex sb eb sp ep fn cs)

/-- `emitCount` summed over a list of sibling subtrees. -/
def emitCountList (tables : List (TypeName × Entry)) (ns : List SNode) : Nat :=
  match ns with
  | [] => 0
  | n :: rest => emitCount tables n + emitCountList tables rest

end

/-- How many nodes allocate a label pair in a full `traverse` of a tree:
the root's children are always visited (the root's enter result is
discarded), and the root itself allocates when it is accepted and known. -/
def emitCountRoot (tables : List (TypeName × Entry)) (root : SNode) : Nat :=
  emitCountList tables root.children +
    (if root.isErr || root.isMiss || root.isExt then 0
     else leaveCount tables root)

/-- The labels appearing in a list of arguments. -/
def argLabels (args : List Arg) : List Label :=
  args.filterMap fun a =>
    match a with
    | Arg.label l => some l
    | _ => none

/-- The labels a TRAP entry refers to (a `NewId` entry introduces its
label rather than referring to it). -/
def labelRefs : TrapEntry → List Label
  | TrapEntry.new _ => []
  | TrapEntry.definition _ id args loc => id :: (argLabels args ++ [loc])
  | TrapEntry.childOf _ id _ _ p => [id, p]
  | TrapEntry.located args => argLabels args
  | TrapEntry.comment _ => []

/-- The labels a TRAP entry introduces. -/
def introducedLabels : TrapEntry → List Label
  | TrapEntry.new l => [l]
  | _ => []

/-- Every label referred to by an entry of the list was introduced by a
`NewId` entry strictly earlier in the list (or is in `seen`). -/
def wellScopedFrom (seen : List Label) : List TrapEntry → Bool
  | [] => true
  | e :: rest =>
    (labelRefs e).all (fun l => decide (l ∈ seen)) &&
      wellScopedFrom (introducedLabels e ++ seen) rest

/-- The labels introduced by a prefix, newest first, on top of `seen`. -/
def seenAfter (seen : List Label) (out : List TrapEntry) : List Label :=
  out.foldl (fun s e => introducedLabels e ++ s) seen

/-- The scoping invariant maintained by the traversal: the fact output is
well-scoped, and every label parked in an accumulator frame was introduced
by a `NewId` entry already in the output. -/
def ScopeInv (st : VState) : Prop :=
  wellScopedFrom [] st.trap_output = true ∧
  ∀ frame ∈ st.stack, ∀ t ∈ frame, t.2.1 ∈ seenAfter [] st.trap_output

/-! ### Concrete sample data for the witnesses -/

def leafTN : TypeName := ⟨"leaf", true⟩

def pairTN : TypeName := ⟨"pair", true⟩

/-- A two-field table: a `Column`-storage field `left` and a
`Table`-storage field `right`, both accepting `leaf` children. -/
def sampleFields : List Field :=
  [⟨some "left", [leafTN], Storage.column⟩,
   ⟨some "right", [leafTN], Storage.table pairTN 0⟩]

def sampleSchema : List Entry :=
  [Entry.table leafTN [], Entry.table pairTN sampleFields]

def sampleLeaf1 : SNode :=
  SNode.mk "leaf" true false false false 0 1 ⟨0, 0⟩ ⟨0, 1⟩ (some "left") []

def sampleLeaf2 : SNode :=
  SNode.mk "leaf" true false false false 1 2 ⟨0, 1⟩ ⟨0, 2⟩ (some "right") []

def samplePair : SNode :=
  SNode.mk "pair" true false false false 0 2 ⟨0, 0⟩ ⟨0, 2⟩ none
    [sampleLeaf1, sampleLeaf2]

/-- A parser-reported error node at the root, with an ordinary `leaf`
child below it. -/
def sampleErrorRoot : SNode :=
  SNode.mk "ERROR" true true false false 0 1 ⟨0, 0⟩ ⟨0, 1⟩ none
    [SNode.mk "leaf" true false false false 0 1 ⟨0, 0⟩ ⟨0, 1⟩ none []]

def sampleMissing : SNode :=
  SNode.mk "]" false false true false 1 1 ⟨0, 1⟩ ⟨0, 1⟩ none []

def sampleUnknown : SNode :=
  SNode.mk "mystery" true false false false 0 1 ⟨0, 0⟩ ⟨0, 1⟩ none []

def sampleLeafSpan : SNode :=
  SNode.mk "leaf" true false false false 0 2 ⟨0, 0⟩ ⟨0, 2⟩ none []

/-- The state of a traversal over source `"ab"` at the moment a node with
an open parent frame is being left. -/
def samplePairState : VState :=
  { initState "f.rs" [97, 98] sampleSchema with stack := [[], []] }

/-! ### The type resolver computes the spec's least fixed point -/

/-- A chain of union hops: `Steps u ks types fin` means that following the
keys `ks` (each a union member of the previous member set) from the allowed
set `types` ends in the member set `fin`. -/
inductive Steps (u : List (TypeName × List TypeName)) :
    List TypeName → List TypeName → List TypeName → Prop
  | nil (types : List TypeName) : Steps u [] types types
  | cons {ks : List TypeName} {types ms fin : List TypeName} (other : TypeName) :
      other ∈ types → lookupA other u = some ms → Steps u ks ms fin →
      Steps u (other :: ks) types fin

theorem matchesSpec_iff_steps {u : List (TypeName × List TypeName)}
    {tp : TypeName} {types : List TypeName} :
    MatchesSpec u tp types ↔ ∃ ks fin, Steps u ks types fin ∧ tp ∈ fin := by
  constructor
  · intro h
    induction h with
    | mem hmem => exact ⟨[], _, Steps.nil _, hmem⟩
    | viaUnion other ms hmem hlook _ ih =>
      obtain ⟨ks, fin, s, hfin⟩ := ih
      exact ⟨other :: ks, fin, Steps.cons other hmem hlook s, hfin⟩
  · rintro ⟨ks, fin, s, hfin⟩
    induction s with
    | nil => exact MatchesSpec.mem hfin
    | cons other hmem hlook _ ih => exact MatchesSpec.viaUnion other _ hmem hlook (ih hfin)

theorem steps_run {u : List (TypeName × List TypeName)} {tp : TypeName}
    {ks : List TypeName} {types fin : List TypeName}
    (s : Steps u ks types fin) (hfin : tp ∈ fin) :
    type_matchesF u (ks.length + 1) tp types = true := by
  induction s with
  | nil =>
    simp only [List.length_nil, type_matchesF, Bool.or_eq_true, decide_eq_true_eq]
    exact Or.inl hfin
  | cons other hmem hlook _ ih =>
    simp only [List.length_cons, type_matchesF, Bool.or_eq_true, List.any_eq_true]
    refine Or.inr ⟨other, hmem, ?_⟩
    rw [hlook]
    exact ih hfin

theorem type_matchesF_mono {u : List (TypeName × List TypeName)} {tp : TypeName} :
    ∀ {f g : Nat} {types : List TypeName}, f ≤ g →
      type_matchesF u f tp types = true → type_matchesF u g tp types = true := by
  intro f
  induction f with
  | zero => intro g types _ h; simp [type_matchesF] at h
  | succ f ih =>
    intro g types hfg h
    obtain ⟨g', rfl⟩ : ∃ g', g = g' + 1 := ⟨g - 1, by omega⟩
    simp only [type_matchesF, Bool.or_eq_true, List.any_eq_true] at h ⊢
    rcases h with h | ⟨other, hmem, hmatch⟩
    · exact Or.inl h
    · refine Or.inr ⟨other, hmem, ?_⟩
      rcases hlook : lookupA other u with _ | ms
      · rw [hlook] at hmatch
        exact (Bool.false_ne_true hmatch).elim
      · rw [hlook] at hmatch
        exact ih (by omega) hmatch

theorem steps_append {u : List (TypeName × List TypeName)}
    {xs ys : List TypeName} {types fin : List TypeName} :
    Steps u (xs ++ ys) types fin ↔ ∃ mid, Steps u xs types mid ∧ Steps u ys mid fin := by
  induction xs generalizing types with
  | nil =>
    simp only [List.nil_append]
    exact ⟨fun s => ⟨types, Steps.nil _, s⟩,
      fun ⟨mid, s1, s2⟩ => by cases s1; exact s2⟩
  | cons x xs ih =>
    constructor
    · intro s
      cases s with
      | cons _ hmem hlook s' =>
        obtain ⟨mid, s1, s2⟩ := ih.mp s'
        exact ⟨mid, Steps.cons x hmem hlook s1, s2⟩
    · rintro ⟨mid, s1, s2⟩
      cases s1 with
      | cons _ hmem hlook s1' => exact Steps.cons x hmem hlook (ih.mpr ⟨mid, s1', s2⟩)

theorem steps_cut {u : List (TypeName × List TypeName)} {a : TypeName}
    {p q r : List TypeName} {types fin : List TypeName}
    (s : Steps u ((p ++ (a :: q)) ++ (a :: r)) types fin) :
    Steps u (p ++ (a :: r)) types fin := by
  obtain ⟨m2, s12, s3⟩ := steps_append.mp s
  obtain ⟨m1, sp, s2⟩ := steps_append.mp s12
  cases s2 with
  | cons _ hmem1 hlook1 _ =>
    cases s3 with
    | cons _ _ hlook2 s5 =>
      rw [hlook1] at hlook2
      injection hlook2 with hms
      rw [← hms] at s5
      exact steps_append.mpr ⟨m1, sp, Steps.cons a hmem1 hlook1 s5⟩

theorem not_nodup_decomp {α : Type} [DecidableEq α] :
    ∀ (l : List α), ¬ l.Nodup →
      ∃ (p : List α) (a : α) (q r : List α), l = (p ++ (a :: q)) ++ (a :: r) := by
  intro l
  induction l with
  | nil => intro h; exact absurd List.nodup_nil h
  | cons x xs ih =>
    intro h
    rw [List.nodup_cons] at h
    push_neg at h
    by_cases hx : x ∈ xs
    · obtain ⟨q, r, rfl⟩ := List.append_of_mem hx
      exact ⟨[], x, q, r, rfl⟩
    · obtain ⟨p, a, q, r, rfl⟩ := ih (h hx)
      exact ⟨x :: p, a, q, r, rfl⟩

theorem steps_dedup {u : List (TypeName × List TypeName)}
    {types fin : List TypeName} :
    ∀ (n : Nat) (ks : List TypeName), ks.length ≤ n → Steps u ks types fin →
      ∃ ks', ks'.Nodup ∧ ks'.length ≤ ks.length ∧ Steps u ks' types fin := by
  intro n
  induction n with
  | zero =>
    intro ks hlen s
    refine ⟨ks, ?_, le_refl _, s⟩
    have : ks = [] := List.length_eq_zero.mp (by omega)
    simp [this]
  | succ n ih =>
    intro ks hlen s
    by_cases hnd : ks.Nodup
    · exact ⟨ks, hnd, le_refl _, s⟩
    · obtain ⟨p, a, q, r, rfl⟩ := not_nodup_decomp _ hnd
      have s' := steps_cut s
      have hlen' : (p ++ a :: r).length ≤ n := by
        simp only [List.length_append, List.length_cons] at hlen ⊢
        omega
      obtain ⟨ks', hnd', hle', s''⟩ := ih _ hlen' s'
      refine ⟨ks', hnd', ?_, s''⟩
      simp only [List.length_append, List.length_cons] at hle' ⊢
      omega

theorem steps_keys_lookup {u : List (TypeName × List TypeName)}
    {ks : List TypeName} {types fin : List TypeName}
    (s : Steps u ks types fin) : ∀ k ∈ ks, ∃ v, lookupA k u = some v := by
  induction s with
  | nil => intro k hk; exact absurd hk (List.not_mem_nil k)
  | cons other hmem hlook _ ih =>
    intro k hk
    rcases List.mem_cons.mp hk with rfl | hk'
    · exact ⟨_, hlook⟩
    · exact ih k hk'

theorem lookupA_some_mem_keys {K V : Type} [DecidableEq K] {k : K} {v : V} :
    ∀ {l : List (K × V)}, lookupA k l = some v → k ∈ l.map Prod.fst := by
  intro l
  induction l with
  | nil => intro h; simp [lookupA] at h
  | cons kv rest ih =>
    intro h
    simp only [lookupA] at h
    split at h
    · simp_all
    · simp only [List.map_cons, List.mem_cons]
      exact Or.inr (ih h)

theorem nodup_subset_length {α : Type} [DecidableEq α] {ks l : List α}
    (hnd : ks.Nodup) (hsub : ∀ k ∈ ks, k ∈ l) : ks.length ≤ l.length := by
  calc ks.length = ks.toFinset.card := (List.toFinset_card_of_nodup hnd).symm
    _ ≤ l.toFinset.card := by
        apply Finset.card_le_card
        intro x hx
        rw [List.mem_toFinset] at hx ⊢
        exact hsub x hx
    _ ≤ l.length := l.toFinset_card_le

theorem type_matchesB_iff_matchesSpec (u : List (TypeName × List TypeName))
    (tp : TypeName) (types : List TypeName) :
    type_matchesB u tp types = true ↔ MatchesSpec u tp types := by
  constructor
  · unfold type_matchesB
    generalize u.length + 1 = f
    induction f generalizing types with
    | zero => intro h; simp [type_matchesF] at h
    | succ f ih =>
      intro h
      simp only [type_matchesF, Bool.or_eq_true, decide_eq_true_eq,
        List.any_eq_true] at h
      rcases h with h | ⟨other, hmem, hmatch⟩
      · exact MatchesSpec.mem h
      · rcases hlook : lookupA other u with _ | ms
        · rw [hlook] at hmatch
          exact (Bool.false_ne_true hmatch).elim
        · rw [hlook] at hmatch
          exact MatchesSpec.viaUnion other ms hmem hlook (ih ms hmatch)
  · intro h
    obtain ⟨ks, fin, s, hfin⟩ := matchesSpec_iff_steps.mp h
    obtain ⟨ks', hnd, _, s'⟩ := steps_dedup ks.length ks (le_refl _) s
    have hkeys : ∀ k ∈ ks', k ∈ u.map Prod.fst := by
      intro k hk
      obtain ⟨v, hv⟩ := steps_keys_lookup s' k hk
      exact lookupA_some_mem_keys hv
    have hbound : ks'.length ≤ u.length := by
      have := nodup_subset_length hnd hkeys
      simpa using this
    exact type_matchesF_mono (by omega) (steps_run s' hfin)

/-! ### Claim C2 -/

/-- C2: the type resolver `type_matches(c, T)` returns `true` if and only if
`c ∈ T`, or some `u ∈ T` is a known Union entry with `matches(c,
members(u))` holding recursively; in particular a child of concrete kind
`literal` is accepted into a field declared with type set `{expr}` when
`expr` is a Union with members `{binary_op, literal}`. -/
theorem claim_C2_type_matches_iff :
    (∀ (u : List (TypeName × List TypeName)) (tp : TypeName) (types : List TypeName),
      type_matchesB u tp types = true ↔ MatchesSpec u tp types) ∧
    type_matchesB
      [(⟨"expr", true⟩, [⟨"binary_op", true⟩, ⟨"literal", true⟩])]
      ⟨"literal", true⟩ [⟨"expr", true⟩] = true :=
  ⟨type_matchesB_iff_matchesSpec, by decide⟩

/-! ### Claims C8 and C9 (rendering and escaping) -/

/-- C8 counterexample: the claim says a `ChildLink` fact renders as
`<escaped parentTable>_<escaped fieldName>(#childId, index, #parentId)`.
For the fact with parent table `int`, parent id `#0`, field `x`, index 5
and child id `#1`, the code renders `int_x(#0, 5, #1)` — the escape is
applied to the joined name (so the reserved word `int` is not suffixed) and
the parent id comes first — while the claimed form is `int___x(#1, 5, #0)`. -/
theorem claim_C8_counterexample :
    TrapEntry.render (TrapEntry.childOf "int" (Label.normal 0) "x" 5 (Label.normal 1))
        = "int_x(#0, 5, #1)" ∧
    escape_name "int" ++ "_" ++ escape_name "x" ++ "(" ++ (Label.normal 1).render
        ++ ", " ++ toString (5 : Nat) ++ ", " ++ (Label.normal 0).render ++ ")"
        = "int___x(#1, 5, #0)" ∧
    "int_x(#0, 5, #1)" ≠ "int___x(#1, 5, #0)" :=
  ⟨rfl, rfl, by decide⟩

/-- C8 amended: every `ChildLink` fact renders to one text line
`<escape(parentTable ++ "_" ++ fieldName)>(#parentId, index, #childId)`:
the relation name is the escape of the raw parent table name and raw field
name joined by an underscore (escaped as one string), and the arguments are
the parent row's id first, then the integer field index, then the child's
id last. -/
theorem claim_C8_amended (pname : String) (parentId : Label) (fname : String)
    (idx : Nat) (childId : Label) :
    TrapEntry.render (TrapEntry.childOf pname parentId fname idx childId) =
      escape_name (pname ++ "_" ++ fname) ++ "(" ++ parentId.render ++ ", "
        ++ toString idx ++ ", " ++ childId.render ++ ")" :=
  rfl

/-- C9 counterexample: the escaper is not collision-free on distinct
inputs — the two distinct raw names `.` and `dot` escape to the same
string `dot`. -/
theorem claim_C9_counterexample :
    escape_name "." = escape_name "dot" ∧ "." ≠ "dot" :=
  ⟨rfl, by decide⟩

/-- C9 amended: the identifier escaper is deterministic (equal inputs yield
equal outputs), but it is not collision-free on arbitrary distinct inputs
(see the counterexample); it is injective on the spec's test set — the
listed punctuation characters, a leading-underscore name, and the reserved
words all escape to pairwise distinct strings. -/
theorem claim_C9_amended :
    (∀ a b : String, a = b → escape_name a = escape_name b) ∧
    (escapeTestNames.map escape_name).Nodup :=
  ⟨fun _ _ h => congrArg escape_name h, by decide⟩

/-- Witness for the amended C9 determinism statement at a concrete input. -/
theorem claim_C9_amended_witness :
    escape_name "binary_op" = escape_name "binary_op" :=
  claim_C9_amended.1 "binary_op" "binary_op" rfl

/-! ### Bucket-map lemmas -/

theorem lookupA_insertA_self {K V : Type} [DecidableEq K] (k : K) (v : V) :
    ∀ (m : List (K × V)), lookupA k (insertA k v m) = some v := by
  intro m
  induction m with
  | nil => simp [insertA, lookupA]
  | cons kv rest ih =>
    obtain ⟨k', v'⟩ := kv
    by_cases h : k = k'
    · subst h; simp [insertA, lookupA]
    · simp [insertA, lookupA, h, ih]

theorem lookupA_insertA_ne {K V : Type} [DecidableEq K] {k k' : K} (h : k ≠ k') (v : V) :
    ∀ (m : List (K × V)), lookupA k (insertA k' v m) = lookupA k m := by
  intro m
  induction m with
  | nil => simp [insertA, lookupA, h]
  | cons kv rest ih =>
    obtain ⟨k'', v''⟩ := kv
    by_cases h2 : k' = k''
    · subst h2; simp [insertA, lookupA, h]
    · by_cases h3 : k = k''
      · subst h3; simp [insertA, lookupA, h2]
      · simp [insertA, lookupA, h2, h3, ih]

theorem map0_foldl_preserved (name : Option String) :
    ∀ (fields : List Field) (m : BucketMap),
      (∀ f ∈ fields, f.name ≠ name) →
      lookupA name (fields.foldl (fun acc field => insertA field.name (field, []) acc) m)
        = lookupA name m := by
  intro fields
  induction fields with
  | nil => intro m _; rfl
  | cons g rest ih =>
    intro m h
    simp only [List.foldl_cons]
    rw [ih _ (fun f hf => h f (List.mem_cons_of_mem g hf))]
    exact lookupA_insertA_ne (h g (List.mem_cons_self g rest)).symm _ m

theorem lookupA_map0_gen (f : Field) :
    ∀ (fields : List Field), f ∈ fields → (fields.map Field.name).Nodup →
      ∀ (m : BucketMap),
        lookupA f.name (fields.foldl (fun acc field => insertA field.name (field, []) acc) m)
          = some (f, ([] : List Label)) := by
  intro fields
  induction fields with
  | nil => intro hf; cases hf
  | cons g rest ih =>
    intro hf hnd m
    rw [List.map_cons, List.nodup_cons] at hnd
    simp only [List.foldl_cons]
    rcases List.mem_cons.mp hf with rfl | hf'
    · rw [map0_foldl_preserved _ rest _ ?_]
      · exact lookupA_insertA_self _ _ m
      · intro f' hf' heq
        exact hnd.1 (heq ▸ List.mem_map_of_mem Field.name hf')
    · exact ih hf' hnd.2 _

theorem lookupA_map0Of (fields : List Field) (f : Field) (hf : f ∈ fields)
    (hnd : (fields.map Field.name).Nodup) :
    lookupA f.name (map0Of fields) = some (f, ([] : List Label)) :=
  lookupA_map0_gen f fields hf hnd []

theorem bucketStep_fst_other (path : String) (u : List (TypeName × List TypeName))
    (node : SNode) (m : BucketMap) (ds : List Diag) (cf : Option String) (cid : Label)
    (ct : TypeName) (name : Option String) (hne : cf ≠ name) :
    lookupA name (bucketStep path u node (m, ds) (cf, cid, ct)).1 = lookupA name m := by
  simp only [bucketStep]
  split
  · split
    · exact lookupA_insertA_ne (Ne.symm hne) _ m
    · split <;> rfl
  · split <;> rfl

theorem fillBuckets_lookup (path : String) (u : List (TypeName × List TypeName))
    (node : SNode) (fld : Field) :
    ∀ (cs : List (Option String × Label × TypeName)) (m : BucketMap) (ds : List Diag)
      (acc : List Label),
      lookupA fld.name m = some (fld, acc) →
      lookupA fld.name (cs.foldl (bucketStep path u node) (m, ds)).1
        = some (fld, acc ++ columnBucket u cs fld) := by
  intro cs
  induction cs with
  | nil =>
    intro m ds acc h
    simpa [columnBucket] using h
  | cons c rest ih =>
    intro m ds acc h
    obtain ⟨cf, cid, ct⟩ := c
    simp only [List.foldl_cons]
    by_cases hcf : cf = fld.name
    · subst hcf
      by_cases htm : type_matchesB u ct fld.types
      · have hstep : bucketStep path u node (m, ds) (fld.name, cid, ct)
            = (insertA fld.name (fld, acc ++ [cid]) m, ds) := by
          simp [bucketStep, h, htm]
        rw [hstep, ih _ _ _ (lookupA_insertA_self _ _ _)]
        simp [columnBucket, List.filter_cons, htm, List.append_assoc]
      · rw [Bool.not_eq_true] at htm
        have hkeep : (bucketStep path u node (m, ds) (fld.name, cid, ct)).1 = m := by
          simp only [bucketStep, h, htm]
          split
          · simp_all
          · split <;> rfl
        have hih := ih (bucketStep path u node (m, ds) (fld.name, cid, ct)).1
          (bucketStep path u node (m, ds) (fld.name, cid, ct)).2 acc
          (by rw [hkeep]; exact h)
        rw [show ((bucketStep path u node (m, ds) (fld.name, cid, ct)).1,
            (bucketStep path u node (m, ds) (fld.name, cid, ct)).2)
              = bucketStep path u node (m, ds) (fld.name, cid, ct) from rfl] at hih
        rw [hih]
        simp [columnBucket, List.filter_cons, htm]
    · have hkeep := bucketStep_fst_other path u node m ds cf cid ct fld.name hcf
      have hih := ih (bucketStep path u node (m, ds) (cf, cid, ct)).1
        (bucketStep path u node (m, ds) (cf, cid, ct)).2 acc
        (by rw [hkeep]; exact h)
      rw [show ((bucketStep path u node (m, ds) (cf, cid, ct)).1,
          (bucketStep path u node (m, ds) (cf, cid, ct)).2)
            = bucketStep path u node (m, ds) (cf, cid, ct) from rfl] at hih
      rw [hih]
      simp [columnBucket, List.filter_cons, hcf]

theorem bucketIds_finalBuckets (st : VState) (node : SNode) (fields : List Field)
    (child_nodes : List (Option String × Label × TypeName)) (f : Field)
    (hf : f ∈ fields) (hnd : (fields.map Field.name).Nodup) :
    bucketIds (finalBuckets st node fields child_nodes) f
      = columnBucket st.union_types child_nodes f := by
  unfold bucketIds finalBuckets fillBuckets
  rw [fillBuckets_lookup st.path st.union_types node f child_nodes (map0Of fields) []
    [] (lookupA_map0Of fields f hf hnd)]
  simp

/-! ### Phase 2 of `complex_node` in closed form -/

theorem fieldFold_spec (node : SNode) (parent_id : Label) (m : BucketMap) :
    ∀ (fields : List Field) (args0 : List Arg) (valid0 : Bool) (s0 : VState),
      fields.foldl (fieldStep node parent_id m) (args0, valid0, s0) =
        (args0 ++ fieldArgs m fields,
         valid0 && fieldsValid m fields,
         { s0 with
            trap_output := s0.trap_output ++ fieldLinks node parent_id m fields
            diags := s0.diags ++ fieldDiags s0.path node m fields }) := by
  intro fields
  induction fields with
  | nil =>
    intro args0 valid0 s0
    simp [fieldArgs, fieldsValid, fieldLinks, fieldDiags]
  | cons f rest ih =>
    intro args0 valid0 s0
    simp only [List.foldl_cons]
    rcases hstor : f.storage with _ | ⟨parent, index⟩
    · rcases hb : bucketIds m f with _ | ⟨cid, _ | ⟨cid2, tl2⟩⟩
      · have hstep : fieldStep node parent_id m (args0, valid0, s0) f
            = (args0, false, { s0 with diags := s0.diags ++
                [Diag.missingValue s0.path node.startPos.row node.kind
                  (f.name.getD "child")] }) := by
          simp [fieldStep, hstor, hb]
        rw [hstep, ih]
        simp [fieldArgs, fieldsValid, fieldLinks, fieldDiags, hstor, hb,
          List.filterMap_cons, List.all_cons, List.flatMap_cons, List.append_assoc]
      · have hstep : fieldStep node parent_id m (args0, valid0, s0) f
            = (args0 ++ [Arg.label cid], valid0, s0) := by
          simp [fieldStep, hstor, hb]
        rw [hstep, ih]
        simp [fieldArgs, fieldsValid, fieldLinks, fieldDiags, hstor, hb,
          List.filterMap_cons, List.all_cons, List.flatMap_cons, List.append_assoc]
      · have hstep : fieldStep node parent_id m (args0, valid0, s0) f
            = (args0, false, { s0 with diags := s0.diags ++
                [Diag.tooManyValues s0.path node.startPos.row node.kind
                  (f.name.getD "child")] }) := by
          simp [fieldStep, hstor, hb]
        rw [hstep, ih]
        simp [fieldArgs, fieldsValid, fieldLinks, fieldDiags, hstor, hb,
          List.filterMap_cons, List.all_cons, List.flatMap_cons, List.append_assoc]
    · have hstep : fieldStep node parent_id m (args0, valid0, s0) f
          = (args0, valid0,
             { s0 with trap_output := s0.trap_output ++ fieldLinks node parent_id m [f] }) := by
        simp [fieldStep, fieldLinks, hstor]
      rw [hstep, ih]
      simp [fieldArgs, fieldsValid, fieldLinks, fieldDiags, hstor,
        List.filterMap_cons, List.all_cons, List.flatMap_cons, List.append_assoc]

theorem complex_node_spec (st : VState) (node : SNode) (fields : List Field)
    (child_nodes : List (Option String × Label × TypeName)) (parent_id : Label) :
    complex_node st node fields child_nodes parent_id =
      ((if fieldsValid (finalBuckets st node fields child_nodes) fields
        then some (fieldArgs (finalBuckets st node fields child_nodes) fields)
        else none),
       { st with
          trap_output := st.trap_output ++
            fieldLinks node parent_id (finalBuckets st node fields child_nodes) fields
          diags := st.diags ++
            (fillBuckets st.path st.union_types node child_nodes (map0Of fields)).2 ++
            fieldDiags st.path node (finalBuckets st node fields child_nodes) fields }) := by
  rcases hfb : fillBuckets st.path st.union_types node child_nodes (map0Of fields)
    with ⟨map1, diags1⟩
  simp only [complex_node, finalBuckets, hfb, fieldFold_spec]
  simp [List.append_assoc]

theorem mem_columnBucket {u : List (TypeName × List TypeName)}
    {cs : List (Option String × Label × TypeName)} {f : Field} {lab : Label}
    (h : lab ∈ columnBucket u cs f) :
    ∃ cf ct, (cf, lab, ct) ∈ cs ∧ cf = f.name ∧
      type_matchesB u ct f.types = true := by
  unfold columnBucket at h
  rw [List.mem_map] at h
  obtain ⟨c, hc, hlab⟩ := h
  rw [List.mem_filter] at hc
  obtain ⟨hmem, hpred⟩ := hc
  obtain ⟨cf, cid, ct⟩ := c
  simp only [Bool.and_eq_true, decide_eq_true_eq] at hpred
  simp only at hlab
  subst hlab
  exact ⟨cf, ct, hmem, hpred.1, hpred.2⟩

theorem fieldArgs_forall2 {u : List (TypeName × List TypeName)}
    {cs : List (Option String × Label × TypeName)} (m : BucketMap) :
    ∀ (fields : List Field),
      (∀ f ∈ fields, bucketIds m f = columnBucket u cs f) →
      fieldsValid m fields = true →
      List.Forall₂
        (fun f a => ∃ lab cf ct, a = Arg.label lab ∧ (cf, lab, ct) ∈ cs ∧
          cf = f.name ∧ type_matchesB u ct f.types = true)
        (fields.filter fun f => decide (f.storage = Storage.column))
        (fieldArgs m fields) := by
  intro fields
  induction fields with
  | nil =>
    intro _ _
    simp only [List.filter_nil, fieldArgs, List.filterMap_nil]
    exact List.Forall₂.nil
  | cons f rest ih =>
    intro hB hv
    unfold fieldsValid at hv
    rw [List.all_cons, Bool.and_eq_true] at hv
    have hBf := hB f (List.mem_cons_self f rest)
    have hBrest : ∀ g ∈ rest, bucketIds m g = columnBucket u cs g :=
      fun g hg => hB g (List.mem_cons_of_mem f hg)
    have ihr := ih hBrest hv.2
    rcases hstor : f.storage with _ | ⟨parent, index⟩
    · rw [hstor] at hv
      have hlen : (bucketIds m f).length = 1 := by
        have := hv.1
        simpa using this
      obtain ⟨lab, hlab⟩ := List.length_eq_one.mp hlen
      have hfa : fieldArgs m (f :: rest) = Arg.label lab :: fieldArgs m rest := by
        unfold fieldArgs
        rw [List.filterMap_cons, hstor, hlab]
      have hff : (f :: rest).filter (fun f => decide (f.storage = Storage.column))
          = f :: rest.filter (fun f => decide (f.storage = Storage.column)) := by
        rw [List.filter_cons]
        simp [hstor]
      rw [hfa, hff, List.forall₂_cons]
      refine ⟨?_, ihr⟩
      have hmemlab : lab ∈ columnBucket u cs f := by
        rw [← hBf, hlab]; exact List.mem_singleton_self lab
      obtain ⟨cf, ct, hmem, hcf, htm⟩ := mem_columnBucket hmemlab
      exact ⟨lab, cf, ct, rfl, hmem, hcf, htm⟩
    · have hfa : fieldArgs m (f :: rest) = fieldArgs m rest := by
        unfold fieldArgs
        rw [List.filterMap_cons, hstor]
      have hff : (f :: rest).filter (fun f => decide (f.storage = Storage.column))
          = rest.filter (fun f => decide (f.storage = Storage.column)) := by
        rw [List.filter_cons]
        simp [hstor]
      rw [hfa, hff]
      exact ihr

/-! ### Claim C3 -/

/-- C3: a successfully validated row's argument list pairs exactly one
reference argument with each `Column`-storage field, in schema field
declaration order, and each argument's label was contributed by an
accumulated child whose field name matches the field and whose `TypeName`
satisfies the field's declared type set (directly or through union
expansion, i.e. via `type_matches`). -/
theorem claim_C3_row_arguments (st : VState) (node : SNode) (fields : List Field)
    (child_nodes : List (Option String × Label × TypeName)) (parent_id : Label)
    (args : List Arg)
    (hnd : (fields.map Field.name).Nodup)
    (hok : (complex_node st node fields child_nodes parent_id).1 = some args) :
    List.Forall₂
      (fun f a => ∃ lab cf ct, a = Arg.label lab ∧ (cf, lab, ct) ∈ child_nodes ∧
        cf = f.name ∧ type_matchesB st.union_types ct f.types = true)
      (fields.filter fun f => decide (f.storage = Storage.column)) args := by
  rw [complex_node_spec] at hok
  simp only at hok
  split at hok
  · injection hok with h
    subst h
    exact fieldArgs_forall2 (finalBuckets st node fields child_nodes) fields
      (fun f hf => bucketIds_finalBuckets st node fields child_nodes f hf hnd)
      (by assumption)
  · exact absurd hok (by simp)

/-- Witness for C3 at a concrete validated node: the `pair` table's
`Column` field `left` receives the accumulated `leaf` child's label. -/
theorem claim_C3_row_arguments_witness :
    List.Forall₂
      (fun (f : Field) (a : Arg) => ∃ lab cf ct, a = Arg.label lab ∧
        (cf, lab, ct) ∈ [((some "left" : Option String), Label.normal 0, leafTN)] ∧
        cf = f.name ∧ type_matchesB samplePairState.union_types ct f.types = true)
      (sampleFields.filter fun f => decide (f.storage = Storage.column))
      [Arg.label (Label.normal 0)] :=
  claim_C3_row_arguments samplePairState samplePair sampleFields
    [(some "left", Label.normal 0, leafTN)] (Label.normal 1)
    [Arg.label (Label.normal 0)] (by decide) rfl

/-! ### Claim C4 -/

/-- C4: leaving an accepted node whose type name has no `Table` entry only
reports an unknown-table-type diagnostic and discards the node's popped
frame: the fact output is exactly unchanged (so every row already emitted
for its descendants remains, and the node occurs in no child-link fact),
the counter is untouched (no labels, no `NewId`/`Location` facts), and
nothing is appended to the parent's accumulator frame. -/
theorem claim_C4_unknown_type (field_name : Option String) (node : SNode) (st : VState)
    (frame : List (Option String × Label × TypeName))
    (rest : List (List (Option String × Label × TypeName)))
    (herr : node.isErr = false) (hmiss : node.isMiss = false) (hext : node.isExt = false)
    (hstack : st.stack = frame :: rest)
    (hunknown : lookupA node.typeName st.tables = none) :
    leave_node field_name node st = Except.ok
      { st with
        stack := rest
        diags := st.diags ++ [Diag.unknownTableType st.path node.startPos.row node.kind] } := by
  simp [leave_node, herr, hmiss, hext, hstack, hunknown]

/-- Witness for C4 at a concrete unknown-kind node. -/
theorem claim_C4_unknown_type_witness :
    leave_node none sampleUnknown { initState "f.rs" [97] sampleSchema with stack := [[]] }
      = Except.ok
        { initState "f.rs" [97] sampleSchema with
          stack := []
          diags := [Diag.unknownTableType "f.rs" 0 "mystery"] } :=
  claim_C4_unknown_type none sampleUnknown _ [] [] rfl rfl rfl rfl rfl

/-! ### Claim C6 -/

/-- C6: leaving any accepted node whose `Table` entry declares zero fields
allocates the label pair, emits both `NewId` facts and a `Location` fact
built from the node's start/end (row, column) span, and emits a
`RowDefinition` whose argument list is exactly one argument — the decoded
source-text slice covered by the node's byte range; when a parent frame is
open the node is appended to it, and when the node's frame was the only
one (a root) the stack is simply left empty. -/
theorem claim_C6_leaf_row (field_name : Option String) (node : SNode) (st : VState)
    (frame : List (Option String × Label × TypeName))
    (rest : List (List (Option String × Label × TypeName)))
    (tn : TypeName) (cs : List Char)
    (herr : node.isErr = false) (hmiss : node.isMiss = false) (hext : node.isExt = false)
    (hstack : st.stack = frame :: rest)
    (htable : lookupA node.typeName st.tables = some (Entry.table tn []))
    (hctr : -(2 ^ 31) ≤ st.counter + 1 ∧ st.counter + 1 < 2 ^ 31)
    (hrange : node.startByte ≤ node.endByte ∧ node.endByte ≤ st.source.length)
    (hdec : decodeUtf8 ((st.source.drop node.startByte).take (node.endByte - node.startByte))
      = some cs) :
    leave_node field_name node st = Except.ok
      { st with
        counter := st.counter + 1
        stack :=
          match rest with
          | parentF :: rest2 =>
            (parentF ++ [(field_name, Label.normal (st.counter + 1), node.typeName)])
              :: rest2
          | [] => []
        trap_output := st.trap_output ++
          [TrapEntry.new (Label.normal (st.counter + 1)),
           TrapEntry.new (Label.location (st.counter + 1)),
           TrapEntry.located
             [Arg.label (Label.location (st.counter + 1)), Arg.str st.path,
              Arg.int node.startPos.row, Arg.int node.startPos.col,
              Arg.int node.endPos.row, Arg.int node.endPos.col],
           TrapEntry.definition (node_type_name node.kind node.named)
             (Label.normal (st.counter + 1)) [Arg.str (String.mk cs)]
             (Label.location (st.counter + 1))] } := by
  have hc1 : -(2147483648 : Int) ≤ st.counter + 1 := by
    have h := hctr.1
    norm_num at h ⊢
    omega
  have hc2 : st.counter + 1 < (2147483648 : Int) := by
    have h := hctr.2
    norm_num at h ⊢
    omega
  rcases rest with _ | ⟨parentF, rest2⟩ <;>
    (simp [leave_node, herr, hmiss, hext, hstack, htable, inc_i32, hc1, hc2,
       sliced_source_arg, hrange.1, hrange.2, hdec, location_for, List.append_assoc]
     rfl)

/-- Witness for C6: the round-trip scenario — a `leaf` node covering byte
range 0..2 of the source `"ab"` produces a row whose sole argument is the
string `ab` and a `Location` fact for span (0,0)-(0,2) — exercised both
under an open parent frame and as the only frame on the stack (a root
leaf). -/
theorem claim_C6_leaf_row_witness :
    (leave_node none sampleLeafSpan samplePairState = Except.ok
      { samplePairState with
        counter := 0
        stack := [[((none : Option String), Label.normal 0, leafTN)]]
        trap_output := samplePairState.trap_output ++
          [TrapEntry.new (Label.normal 0),
           TrapEntry.new (Label.location 0),
           TrapEntry.located
             [Arg.label (Label.location 0), Arg.str "f.rs",
              Arg.int 0, Arg.int 0, Arg.int 0, Arg.int 2],
           TrapEntry.definition "leaf" (Label.normal 0) [Arg.str "ab"]
             (Label.location 0)] }) ∧
    (leave_node none sampleLeafSpan { samplePairState with stack := [[]] } = Except.ok
      { samplePairState with
        counter := 0
        stack := []
        trap_output := samplePairState.trap_output ++
          [TrapEntry.new (Label.normal 0),
           TrapEntry.new (Label.location 0),
           TrapEntry.located
             [Arg.label (Label.location 0), Arg.str "f.rs",
              Arg.int 0, Arg.int 0, Arg.int 0, Arg.int 2],
           TrapEntry.definition "leaf" (Label.normal 0) [Arg.str "ab"]
             (Label.location 0)] }) := by
  constructor
  · have h := claim_C6_leaf_row none sampleLeafSpan samplePairState [] [[]] leafTN
      ['a', 'b'] rfl rfl rfl rfl rfl (by decide) (by decide) rfl
    exact h
  · have h := claim_C6_leaf_row none sampleLeafSpan
      { samplePairState with stack := [[]] } [] [] leafTN
      ['a', 'b'] rfl rfl rfl rfl rfl (by decide) (by decide) rfl
    exact h

/-! ### Claim C1 -/

/-- Leaving an accepted node with a known `Table` entry and a non-empty
field list, in closed form: the label pair is allocated, `NewId`×2 and the
`Location` fact are emitted, the child links and arity diagnostics of every
field are produced, the row definition is emitted exactly when every
`Column` bucket holds one id, and the node is appended to the parent frame
regardless. -/
theorem leave_node_complex (field_name : Option String) (node : SNode) (st : VState)
    (frame parentF : List (Option String × Label × TypeName))
    (rest2 : List (List (Option String × Label × TypeName)))
    (tn : TypeName) (fields : List Field)
    (herr : node.isErr = false) (hmiss : node.isMiss = false) (hext : node.isExt = false)
    (hstack : st.stack = frame :: parentF :: rest2)
    (htable : lookupA node.typeName st.tables = some (Entry.table tn fields))
    (hne : fields ≠ [])
    (hctr : -(2 ^ 31) ≤ st.counter + 1 ∧ st.counter + 1 < 2 ^ 31) :
    leave_node field_name node st = Except.ok
      { st with
        counter := st.counter + 1
        stack := (parentF ++ [(field_name, Label.normal (st.counter + 1), node.typeName)])
          :: rest2
        trap_output := (st.trap_output ++
          [TrapEntry.new (Label.normal (st.counter + 1)),
           TrapEntry.new (Label.location (st.counter + 1)),
           location_for st.path (Label.location (st.counter + 1)) node] ++
          fieldLinks node (Label.normal (st.counter + 1))
            (finalBuckets st node fields frame) fields) ++
          (if fieldsValid (finalBuckets st node fields frame) fields
           then [TrapEntry.definition (node_type_name node.kind node.named)
                  (Label.normal (st.counter + 1))
                  (fieldArgs (finalBuckets st node fields frame) fields)
                  (Label.location (st.counter + 1))]
           else [])
        diags := st.diags ++
          (fillBuckets st.path st.union_types node frame (map0Of fields)).2 ++
          fieldDiags st.path node (finalBuckets st node fields frame) fields } := by
  have hc1 : -(2147483648 : Int) ≤ st.counter + 1 := by
    have h := hctr.1
    norm_num at h ⊢
    omega
  have hc2 : st.counter + 1 < (2147483648 : Int) := by
    have h := hctr.2
    norm_num at h ⊢
    omega
  have hempty : fields.isEmpty = false := by
    cases fields with
    | nil => exact absurd rfl hne
    | cons a b => rfl
  by_cases hv : fieldsValid (finalBuckets st node fields frame) fields
  · simp only [finalBuckets] at hv
    simp [leave_node, herr, hmiss, hext, hstack, htable, inc_i32, hc1, hc2, hempty,
      complex_node_spec, finalBuckets, hv, List.append_assoc]
    rfl
  · rw [Bool.not_eq_true] at hv
    simp only [finalBuckets] at hv
    simp [leave_node, herr, hmiss, hext, hstack, htable, inc_i32, hc1, hc2, hempty,
      complex_node_spec, finalBuckets, hv, List.append_assoc]
    rfl

/-- C1: when a node with a known `Table` entry and a non-empty declared
field list has some `Column`-storage field whose bucket holds zero or more
than one matching child id, its `RowDefinition` is suppressed (the output
gains only the `NewId`×2, `Location` and child-link entries), a missing- or
too-many-values diagnostic is reported for each such field (so processing
of the remaining declared fields continues past the first failure, and
every `Table`-storage field's child links are still emitted), the label
pair was nevertheless allocated, and the node's `(fieldName, id, TypeName)`
tuple is still appended to the parent's accumulator frame. -/
theorem claim_C1_arity_failure (field_name : Option String) (node : SNode) (st : VState)
    (frame parentF : List (Option String × Label × TypeName))
    (rest2 : List (List (Option String × Label × TypeName)))
    (tn : TypeName) (fields : List Field)
    (herr : node.isErr = false) (hmiss : node.isMiss = false) (hext : node.isExt = false)
    (hstack : st.stack = frame :: parentF :: rest2)
    (htable : lookupA node.typeName st.tables = some (Entry.table tn fields))
    (hne : fields ≠ [])
    (hnd : (fields.map Field.name).Nodup)
    (hctr : -(2 ^ 31) ≤ st.counter + 1 ∧ st.counter + 1 < 2 ^ 31)
    (bad : Field) (hbad : bad ∈ fields) (hbadcol : bad.storage = Storage.column)
    (hbadlen : (columnBucket st.union_types frame bad).length ≠ 1) :
    leave_node field_name node st = Except.ok
      { st with
        counter := st.counter + 1
        stack := (parentF ++ [(field_name, Label.normal (st.counter + 1), node.typeName)])
          :: rest2
        trap_output := st.trap_output ++
          [TrapEntry.new (Label.normal (st.counter + 1)),
           TrapEntry.new (Label.location (st.counter + 1)),
           location_for st.path (Label.location (st.counter + 1)) node] ++
          fieldLinks node (Label.normal (st.counter + 1))
            (finalBuckets st node fields frame) fields
        diags := st.diags ++
          (fillBuckets st.path st.union_types node frame (map0Of fields)).2 ++
          fieldDiags st.path node (finalBuckets st node fields frame) fields } ∧
    (∀ e ∈ fieldLinks node (Label.normal (st.counter + 1))
        (finalBuckets st node fields frame) fields,
      ∃ pn id fn idx p, e = TrapEntry.childOf pn id fn idx p) ∧
    (∀ f ∈ fields, f.storage = Storage.column →
      (columnBucket st.union_types frame f = [] →
        Diag.missingValue st.path node.startPos.row node.kind (f.name.getD "child")
          ∈ fieldDiags st.path node (finalBuckets st node fields frame) fields) ∧
      (1 < (columnBucket st.union_types frame f).length →
        Diag.tooManyValues st.path node.startPos.row node.kind (f.name.getD "child")
          ∈ fieldDiags st.path node (finalBuckets st node fields frame) fields)) := by
  have hM : ∀ f ∈ fields, bucketIds (finalBuckets st node fields frame) f
      = columnBucket st.union_types frame f :=
    fun f hf => bucketIds_finalBuckets st node fields frame f hf hnd
  have hvalid : fieldsValid (finalBuckets st node fields frame) fields = false := by
    unfold fieldsValid
    apply List.all_eq_false.mpr
    refine ⟨bad, hbad, ?_⟩
    rw [hbadcol, hM bad hbad]
    simp [hbadlen]
  refine ⟨?_, ?_, ?_⟩
  · have h := leave_node_complex field_name node st frame parentF rest2 tn fields
      herr hmiss hext hstack htable hne hctr
    rw [hvalid] at h
    simpa using h
  · intro e he
    unfold fieldLinks at he
    rw [List.mem_flatMap] at he
    obtain ⟨f, hf, he2⟩ := he
    rcases hstor : f.storage with _ | ⟨parent, index⟩
    · rw [hstor] at he2
      simp at he2
    · rw [hstor] at he2
      rw [List.mem_map] at he2
      obtain ⟨cid, _, rfl⟩ := he2
      exact ⟨_, _, _, _, _, rfl⟩
  · intro f hf hcol
    constructor
    · intro hempty0
      unfold fieldDiags
      apply List.mem_filterMap.mpr
      refine ⟨f, hf, ?_⟩
      rw [hcol, hM f hf, hempty0]
    · intro hlen
      unfold fieldDiags
      apply List.mem_filterMap.mpr
      refine ⟨f, hf, ?_⟩
      rw [hcol, hM f hf]
      rcases hB : columnBucket st.union_types frame f with _ | ⟨a, _ | ⟨b, tl⟩⟩
      · rw [hB] at hlen
        simp at hlen
      · rw [hB] at hlen
        simp at hlen
      · rfl

/-- Witness for C1: the `pair` node with an empty accumulator frame — its
`Column` field `left` receives zero children, so its row definition is
suppressed while its label pair dangles, the missing-value diagnostic is
reported, and the node is still pushed onto the parent frame. -/
theorem claim_C1_arity_failure_witness :
    leave_node none samplePair samplePairState = Except.ok
      { samplePairState with
        counter := 0
        stack := [[((none : Option String), Label.normal 0, pairTN)]]
        trap_output := samplePairState.trap_output ++
          [TrapEntry.new (Label.normal 0), TrapEntry.new (Label.location 0),
           location_for "f.rs" (Label.location 0) samplePair]
        diags := [Diag.missingValue "f.rs" 0 "pair" "left"] } ∧
    Diag.missingValue "f.rs" 0 "pair" "left" ∈
      fieldDiags "f.rs" samplePair
        (finalBuckets samplePairState samplePair sampleFields []) sampleFields := by
  have h := claim_C1_arity_failure none samplePair samplePairState [] [] [] pairTN
    sampleFields rfl rfl rfl rfl rfl (by decide) (by decide) (by decide)
    ⟨some "left", [leafTN], Storage.column⟩ (by decide) rfl (by decide)
  exact ⟨h.1, (h.2.2 ⟨some "left", [leafTN], Storage.column⟩ (by decide) rfl).1 (by decide)⟩

/-! ### Claim C5 -/

/-- C5 amended: for every non-root node reported by the parser as an error
node or a missing-token placeholder, visiting it reports exactly one
diagnostic carrying its location (a parse-error diagnostic, or a
missing-token diagnostic naming the expected kind), pushes no accumulator
frame, does not descend into its children, and leaves every other part of
the state — fact output, counter, stack — unchanged, so the node and its
subtree contribute nothing.  (For the root this fails: the root's enter
result is discarded, so the traversal still descends into an error root's
children — see the counterexample.) -/
theorem claim_C5_amended (n : SNode) (st : VState)
    (h : n.isErr = true ∨ n.isMiss = true) :
    visit n st = Except.ok
      { st with diags := st.diags ++
        [if n.isErr then Diag.parseError st.path n.startPos.row
         else Diag.missingToken st.path n.startPos.row n.kind] } := by
  rcases n with ⟨k, nm, er, mi, ex, sb, eb, sp, ep, fn, cs⟩
  by_cases herr : er = true
  · simp [visit, enter_node, leave_node, SNode.isErr, SNode.isMiss, SNode.isExt,
      SNode.startPos, SNode.kind, herr]
  · rw [Bool.not_eq_true] at herr
    have hmiss : mi = true := by
      rcases h with h | h
      · exact absurd h (by simp [SNode.isErr, herr])
      · simpa [SNode.isMiss] using h
    simp [visit, enter_node, leave_node, SNode.isErr, SNode.isMiss, SNode.isExt,
      SNode.startPos, SNode.kind, herr, hmiss]

/-- Witness for the amended C5 at a concrete missing-token node. -/
theorem claim_C5_amended_witness :
    visit sampleMissing samplePairState = Except.ok
      { samplePairState with diags := [Diag.missingToken "f.rs" 0 "]"] } := by
  have h := claim_C5_amended sampleMissing samplePairState (Or.inr rfl)
  exact h

/-- C5 counterexample: the claim extends the no-descent guarantee to the
root, but the cursor loop discards the root's enter result and sets
`recurse = true` unconditionally, so extracting a tree whose root is a
parser error node with an accepted `leaf` child still descends and emits
the child's facts. -/
theorem claim_C5_counterexample :
    sampleErrorRoot.isErr = true ∧
    extract "f.rs" [97] sampleSchema sampleErrorRoot = Except.ok
      [TrapEntry.comment "Auto-generated TRAP file for f.rs",
       TrapEntry.new (Label.normal 0),
       TrapEntry.new (Label.location 0),
       TrapEntry.located [Arg.label (Label.location 0), Arg.str "f.rs",
         Arg.int 0, Arg.int 0, Arg.int 0, Arg.int 1],
       TrapEntry.definition "leaf" (Label.normal 0) [Arg.str "a"] (Label.location 0)] :=
  ⟨rfl, rfl⟩

/-! ### Label allocation across a traversal -/

theorem labelRange_add (c : Int) (k1 k2 : Nat) :
    labelRange c (k1 + k2) = labelRange c k1 ++ labelRange (c + k1) k2 := by
  induction k1 generalizing c with
  | zero => simp [labelRange]
  | succ k1 ih =>
    have h1 : k1 + 1 + k2 = (k1 + k2) + 1 := by omega
    rw [h1]
    simp only [labelRange, ih (c + 1), List.cons_append]
    have h2 : c + 1 + (k1 : Int) = c + ((k1 : Int) + 1) := by ring
    rw [h2]
    norm_cast

theorem mem_labelRange {x c : Int} : ∀ {k : Nat}, x ∈ labelRange c k → c < x := by
  intro k
  induction k generalizing c with
  | zero => intro h; simp [labelRange] at h
  | succ k ih =>
    intro h
    rcases List.mem_cons.mp h with rfl | h'
    · omega
    · have := ih h'
      omega

theorem labelRange_nodup (c : Int) : ∀ (k : Nat), (labelRange c k).Nodup := by
  intro k
  induction k generalizing c with
  | zero => simp [labelRange]
  | succ k ih =>
    rw [labelRange, List.nodup_cons]
    exact ⟨fun h => absurd (mem_labelRange h) (by omega), ih (c + 1)⟩

theorem newNormals_append (xs ys : List TrapEntry) :
    newNormals (xs ++ ys) = newNormals xs ++ newNormals ys := by
  unfold newNormals
  exact List.filterMap_append xs ys _

theorem newLocs_append (xs ys : List TrapEntry) :
    newLocs (xs ++ ys) = newLocs xs ++ newLocs ys := by
  unfold newLocs
  exact List.filterMap_append xs ys _

theorem fieldLinks_shape (node : SNode) (pid : Label) (m : BucketMap)
    (fields : List Field) :
    ∀ e ∈ fieldLinks node pid m fields, ∃ pn id fn idx p,
      e = TrapEntry.childOf pn id fn idx p := by
  intro e he
  unfold fieldLinks at he
  rw [List.mem_flatMap] at he
  obtain ⟨f, _, he2⟩ := he
  rcases hstor : f.storage with _ | ⟨p, i⟩
  · rw [hstor] at he2
    simp at he2
  · rw [hstor] at he2
    rw [List.mem_map] at he2
    obtain ⟨cid, _, rfl⟩ := he2
    exact ⟨_, _, _, _, _, rfl⟩

theorem newNormals_fieldLinks (node : SNode) (pid : Label) (m : BucketMap)
    (fields : List Field) : newNormals (fieldLinks node pid m fields) = [] := by
  unfold newNormals
  rw [List.filterMap_eq_nil]
  intro e he
  obtain ⟨pn, id, fn, idx, p, rfl⟩ := fieldLinks_shape node pid m fields e he
  rfl

theorem newLocs_fieldLinks (node : SNode) (pid : Label) (m : BucketMap)
    (fields : List Field) : newLocs (fieldLinks node pid m fields) = [] := by
  unfold newLocs
  rw [List.filterMap_eq_nil]
  intro e he
  obtain ⟨pn, id, fn, idx, p, rfl⟩ := fieldLinks_shape node pid m fields e he
  rfl

theorem inc_i32_ok {c c' : Int} (h : inc_i32 c = Except.ok c') : c' = c + 1 := by
  unfold inc_i32 at h
  split at h
  · injection h with h
    exact h.symm
  · simp at h

theorem except_bind_ok {ε α β : Type} (a : α) (f : α → Except ε β) :
    (Except.ok a : Except ε α) >>= f = f a := rfl

theorem except_bind_error {ε α β : Type} (e : ε) (f : α → Except ε β) :
    (Except.error e : Except ε α) >>= f = Except.error e := rfl

theorem except_pure_bind {ε α β : Type} (a : α) (f : α → Except ε β) :
    (Except.pure a : Except ε α) >>= f = f a := rfl

/-- The effect of `leave_node` on the counter and the `NewId` entries: an
accepted node allocates `leaveCount` label pairs (one when its type has a
`Table` entry, none otherwise), appends only entries whose normal/location
`NewId` counters are the freshly allocated ones, and touches neither the
schema maps nor the path or source. -/
theorem leave_node_effects (fn : Option String) (node : SNode) (st st' : VState)
    (herr : node.isErr = false) (hmiss : node.isMiss = false) (hext : node.isExt = false)
    (hok : leave_node fn node st = Except.ok st') :
    st'.path = st.path ∧ st'.source = st.source ∧ st'.tables = st.tables ∧
    st'.union_types = st.union_types ∧
    st'.counter = st.counter + leaveCount st.tables node ∧
    ∃ delta, st'.trap_output = st.trap_output ++ delta ∧
      newNormals delta = labelRange st.counter (leaveCount st.tables node) ∧
      newLocs delta = labelRange st.counter (leaveCount st.tables node) := by
  unfold leave_node at hok
  rw [herr, hmiss, hext] at hok
  simp only [Bool.or_self, Bool.or_false, Bool.false_or, if_false, Bool.false_eq_true,
    ite_false] at hok
  rcases hstk : st.stack with _ | ⟨frame, rest⟩
  · rw [hstk] at hok
    exact Except.noConfusion hok
  · rw [hstk] at hok
    rcases hlook : lookupA node.typeName st.tables with _ | entry
    · rw [hlook] at hok
      have hst := Except.ok.inj hok
      subst hst
      refine ⟨rfl, rfl, rfl, rfl, ?_, [], by simp, ?_, ?_⟩ <;>
        simp [leaveCount, hlook, labelRange, newNormals, newLocs]
    · rcases entry with ⟨tn, fields⟩ | ⟨tn, members⟩
      · rw [hlook] at hok
        rcases hinc : inc_i32 st.counter with e | c
        · rw [hinc] at hok
          exact Except.noConfusion hok
        · have hc : c = st.counter + 1 := inc_i32_ok hinc
          rw [hinc] at hok
          simp only [except_bind_ok] at hok
          have hlc : leaveCount st.tables node = 1 := by
            simp [leaveCount, hlook]
          by_cases hfe : fields.isEmpty
          · rw [if_pos hfe] at hok
            rcases hsl : sliced_source_arg st.source node with e2 | arg
            · rw [hsl] at hok
              exact Except.noConfusion hok
            · rw [hsl] at hok
              simp only [except_bind_ok] at hok
              rcases hr : rest with _ | ⟨parentF, rest2⟩ <;>
                rw [hr] at hok <;>
                (have hst := Except.ok.inj hok; subst hst) <;>
                exact ⟨rfl, rfl, rfl, rfl, by simp [hlc, hc],
                  [TrapEntry.new (Label.normal c), TrapEntry.new (Label.location c),
                   location_for st.path (Label.location c) node,
                   TrapEntry.definition (node_type_name node.kind node.named)
                     (Label.normal c) [arg] (Label.location c)],
                  by simp [List.append_assoc],
                  by simp [newNormals, hlc, labelRange, hc, location_for],
                  by simp [newLocs, hlc, labelRange, hc, location_for]⟩
          · rw [if_neg hfe] at hok
            simp only [except_bind_ok, except_pure_bind, pure] at hok
            rw [complex_node_spec] at hok
            set M := finalBuckets
              { st with
                counter := c
                stack := rest
                trap_output := st.trap_output ++
                  [TrapEntry.new (Label.normal c), TrapEntry.new (Label.location c),
                   location_for st.path (Label.location c) node] }
              node fields frame with hMdef
            have hlc2 : leaveCount st.tables node = 1 := hlc
            by_cases hv : fieldsValid M fields
            · rw [if_pos hv] at hok
              rcases hr : rest with _ | ⟨parentF, rest2⟩ <;>
                rw [hr] at hok <;>
                (have hst := Except.ok.inj hok; subst hst) <;>
                refine ⟨rfl, rfl, rfl, rfl, by simp [hlc, hc], ?_⟩ <;>
                refine ⟨[TrapEntry.new (Label.normal c), TrapEntry.new (Label.location c),
                   location_for st.path (Label.location c) node] ++
                   fieldLinks node (Label.normal c) M fields ++
                   [TrapEntry.definition (node_type_name node.kind node.named)
                     (Label.normal c) (fieldArgs M fields) (Label.location c)],
                  by simp [List.append_assoc], ?_, ?_⟩ <;>
                (simp [newNormals_append, newLocs_append, newNormals, newLocs,
                   hlc, labelRange, hc, location_for] <;>
                 (intro a ha
                  obtain ⟨pn, id2, fn2, idx2, p2, rfl⟩ :=
                    fieldLinks_shape _ _ _ _ a ha
                  rfl))
            · rw [if_neg hv] at hok
              rcases hr : rest with _ | ⟨parentF, rest2⟩ <;>
                rw [hr] at hok <;>
                (have hst := Except.ok.inj hok; subst hst) <;>
                refine ⟨rfl, rfl, rfl, rfl, by simp [hlc, hc], ?_⟩ <;>
                refine ⟨[TrapEntry.new (Label.normal c), TrapEntry.new (Label.location c),
                   location_for st.path (Label.location c) node] ++
                   fieldLinks node (Label.normal c) M fields,
                  by simp [List.append_assoc], ?_, ?_⟩ <;>
                (simp [newNormals_append, newLocs_append, newNormals, newLocs,
                   hlc, labelRange, hc, location_for] <;>
                 (intro a ha
                  obtain ⟨pn, id2, fn2, idx2, p2, rfl⟩ :=
                    fieldLinks_shape _ _ _ _ a ha
                  rfl))
      · rw [hlook] at hok
        have hst := Except.ok.inj hok
        subst hst
        refine ⟨rfl, rfl, rfl, rfl, ?_, [], by simp, ?_, ?_⟩ <;>
          simp [leaveCount, hlook, labelRange, newNormals, newLocs]

theorem leave_node_skip (fn : Option String) (node : SNode) (st : VState)
    (h : (node.isExt || node.isErr || node.isMiss) = true) :
    leave_node fn node st = Except.ok st := by
  unfold leave_node
  rw [if_pos h]

mutual

/-- The counter and `NewId` effects of one enter/descend/leave cycle: a
subtree allocates `emitCount` label pairs and its `NewId` counters are the
consecutive values following the incoming counter. -/
theorem visit_counts (n : SNode) : ∀ (st st' : VState),
    visit n st = Except.ok st' →
    st'.path = st.path ∧ st'.source = st.source ∧ st'.tables = st.tables ∧
    st'.union_types = st.union_types ∧
    st'.counter = st.counter + emitCount st.tables n ∧
    ∃ delta, st'.trap_output = st.trap_output ++ delta ∧
      newNormals delta = labelRange st.counter (emitCount st.tables n) ∧
      newLocs delta = labelRange st.counter (emitCount st.tables n) := by
  intro st st' hok
  rcases n with ⟨k, nm, er, mi, ex, sb, eb, sp, ep, fn2, cs⟩
  rcases Bool.eq_false_or_eq_true er with her | her <;> subst her <;>
  rcases Bool.eq_false_or_eq_true mi with hmi | hmi <;> subst hmi <;>
  rcases Bool.eq_false_or_eq_true ex with hex | hex <;> subst hex <;>
  first
  | (have hst := Except.ok.inj hok
     subst hst
     refine ⟨rfl, rfl, rfl, rfl, ?_, [], by simp, ?_, ?_⟩ <;>
       simp [emitCount, labelRange, newNormals, newLocs])
  | (have hok2 : (match visitList cs { st with stack := [] :: st.stack } with
        | Except.ok st2 =>
          leave_node fn2 (SNode.mk k nm false false false sb eb sp ep fn2 cs) st2
        | Except.error e => Except.error e) = Except.ok st' := hok
     rcases hv : visitList cs { st with stack := [] :: st.stack } with e | st2 <;>
       rw [hv] at hok2
     · exact Except.noConfusion hok2
     · have h2 := visitList_counts cs { st with stack := [] :: st.stack } st2 hv
       have h3 := leave_node_effects fn2
         (SNode.mk k nm false false false sb eb sp ep fn2 cs) st2 st' rfl rfl rfl hok2
       obtain ⟨hp2, hs2, ht2, hu2, hc2, d2, htr2, hn2, hl2⟩ := h2
       obtain ⟨hp3, hs3, ht3, hu3, hc3, d3, htr3, hn3, hl3⟩ := h3
       have hec : emitCount st.tables (SNode.mk k nm false false false sb eb sp ep fn2 cs)
           = emitCountList st.tables cs +
             leaveCount st.tables (SNode.mk k nm false false false sb eb sp ep fn2 cs) := by
         simp [emitCount]
       refine ⟨hp3.trans hp2, hs3.trans hs2, ht3.trans ht2, hu3.trans hu2, ?_,
         d2 ++ d3, ?_, ?_, ?_⟩
       · rw [hc3, hc2, ht2, hec]
         push_cast
         ring
       · rw [htr3, htr2, List.append_assoc]
       · rw [newNormals_append, hn2, hn3, hc2, ht2, hec, labelRange_add]
       · rw [newLocs_append, hl2, hl3, hc2, ht2, hec, labelRange_add])

/-- `visit_counts` summed over sibling subtrees. -/
theorem visitList_counts (ns : List SNode) : ∀ (st st' : VState),
    visitList ns st = Except.ok st' →
    st'.path = st.path ∧ st'.source = st.source ∧ st'.tables = st.tables ∧
    st'.union_types = st.union_types ∧
    st'.counter = st.counter + emitCountList st.tables ns ∧
    ∃ delta, st'.trap_output = st.trap_output ++ delta ∧
      newNormals delta = labelRange st.counter (emitCountList st.tables ns) ∧
      newLocs delta = labelRange st.counter (emitCountList st.tables ns) := by
  intro st st' hok
  cases ns with
  | nil =>
    have hst := Except.ok.inj hok
    subst hst
    refine ⟨rfl, rfl, rfl, rfl, ?_, [], by simp, ?_, ?_⟩ <;>
      simp [emitCountList, labelRange, newNormals, newLocs]
  | cons n rest =>
    have hok2 : (match visit n st with
        | Except.ok st1 => visitList rest st1
        | Except.error e => Except.error e) = Except.ok st' := hok
    rcases hv : visit n st with e | st1 <;> rw [hv] at hok2
    · exact Except.noConfusion hok2
    · have h1 := visit_counts n st st1 hv
      have h2 := visitList_counts rest st1 st' hok2
      obtain ⟨hp1, hs1, ht1, hu1, hc1, d1, htr1, hn1, hl1⟩ := h1
      obtain ⟨hp2, hs2, ht2, hu2, hc2, d2, htr2, hn2, hl2⟩ := h2
      have hec : emitCountList st.tables (n :: rest)
          = emitCount st.tables n + emitCountList st.tables rest := by
        simp [emitCountList]
      refine ⟨hp2.trans hp1, hs2.trans hs1, ht2.trans ht1, hu2.trans hu1, ?_,
        d1 ++ d2, ?_, ?_, ?_⟩
      · rw [hc2, hc1, ht1, hec]
        push_cast
        ring
      · rw [htr2, htr1, List.append_assoc]
      · rw [newNormals_append, hn1, hn2, hc1, ht1, hec, labelRange_add]
      · rw [newLocs_append, hl1, hl2, hc1, ht1, hec, labelRange_add]

end

/-- The tail of `traverse` after entering a root whose enter result was
discarded: the children are visited and the root is left, but the root's
leave is a no-op because the root is an error/missing/extra node. -/
theorem traverse_skip_aux (node : SNode) (cs : List SNode) (fn : Option String)
    (st1 st st' : VState)
    (hskip : (node.isExt || node.isErr || node.isMiss) = true)
    (hproj : st1.path = st.path ∧ st1.source = st.source ∧ st1.tables = st.tables ∧
      st1.union_types = st.union_types ∧ st1.counter = st.counter ∧
      st1.trap_output = st.trap_output)
    (hok : (match visitList cs st1 with
        | Except.ok st2 => leave_node fn node st2
        | Except.error e => Except.error e) = Except.ok st') :
    st'.path = st.path ∧ st'.source = st.source ∧ st'.tables = st.tables ∧
    st'.union_types = st.union_types ∧
    st'.counter = st.counter + emitCountList st.tables cs ∧
    ∃ delta, st'.trap_output = st.trap_output ++ delta ∧
      newNormals delta = labelRange st.counter (emitCountList st.tables cs) ∧
      newLocs delta = labelRange st.counter (emitCountList st.tables cs) := by
  obtain ⟨hp1, hs1, ht1, hu1, hc1, htr1⟩ := hproj
  rcases hv : visitList cs st1 with e | st2 <;> rw [hv] at hok
  · exact Except.noConfusion hok
  · have hok2 : leave_node fn node st2 = Except.ok st' := hok
    rw [leave_node_skip fn node st2 hskip] at hok2
    have hst := Except.ok.inj hok2
    subst hst
    have h2 := visitList_counts cs st1 st2 hv
    obtain ⟨hp2, hs2, ht2, hu2, hc2, d2, htr2, hn2, hl2⟩ := h2
    rw [ht1] at ht2 hc2 hn2 hl2
    rw [hc1] at hc2 hn2 hl2
    refine ⟨hp2.trans hp1, hs2.trans hs1, ht2, hu2.trans hu1, hc2,
      d2, ?_, hn2, hl2⟩
    rw [htr2, htr1]

/-- The counter and `NewId` effects of one full cursor-loop traversal. -/
theorem traverse_counts (root : SNode) (st st' : VState)
    (hok : traverse root st = Except.ok st') :
    st'.path = st.path ∧ st'.source = st.source ∧ st'.tables = st.tables ∧
    st'.union_types = st.union_types ∧
    st'.counter = st.counter + emitCountRoot st.tables root ∧
    ∃ delta, st'.trap_output = st.trap_output ++ delta ∧
      newNormals delta = labelRange st.counter (emitCountRoot st.tables root) ∧
      newLocs delta = labelRange st.counter (emitCountRoot st.tables root) := by
  rcases root with ⟨k, nm, er, mi, ex, sb, eb, sp, ep, fn2, cs⟩
  rcases Bool.eq_false_or_eq_true er with her | her
  · subst her
    exact traverse_skip_aux (SNode.mk k nm true mi ex sb eb sp ep fn2 cs)
      cs fn2 { st with diags := st.diags ++ [Diag.parseError st.path sp.row] }
      st st' (by simp [SNode.isExt, SNode.isErr])
      ⟨rfl, rfl, rfl, rfl, rfl, rfl⟩ hok
  · subst her
    rcases Bool.eq_false_or_eq_true mi with hmi | hmi
    · subst hmi
      exact traverse_skip_aux (SNode.mk k nm false true ex sb eb sp ep fn2 cs)
        cs fn2 { st with diags := st.diags ++ [Diag.missingToken st.path sp.row k] }
        st st' (by simp [SNode.isExt, SNode.isErr, SNode.isMiss])
        ⟨rfl, rfl, rfl, rfl, rfl, rfl⟩ hok
    · subst hmi
      rcases Bool.eq_false_or_eq_true ex with hex | hex
      · subst hex
        exact traverse_skip_aux (SNode.mk k nm false false true sb eb sp ep fn2 cs)
          cs fn2 st st st' (by simp [SNode.isExt]) ⟨rfl, rfl, rfl, rfl, rfl, rfl⟩ hok
      · subst hex
        have h := visit_counts (SNode.mk k nm false false false sb eb sp ep fn2 cs)
          st st' hok
        obtain ⟨hp, hs, ht, hu, hc, d, htr, hn, hl⟩ := h
        have heq : emitCountRoot st.tables
            (SNode.mk k nm false false false sb eb sp ep fn2 cs)
            = emitCount st.tables (SNode.mk k nm false false false sb eb sp ep fn2 cs) := by
          simp [emitCountRoot, emitCount, SNode.children, SNode.isErr, SNode.isMiss,
            SNode.isExt]
        rw [heq]
        exact ⟨hp, hs, ht, hu, hc, d, htr, hn, hl⟩

/-- C7: in one extraction of one file, the normal-label `NewId` counters
form, in emission order, exactly the sequence `0, 1, ..., n - 1` (the
counter starts at `-1` per file and each accepted node with a known `Table`
entry increments it once), and likewise for the location labels; in
particular no two accepted nodes share a Normal label and no two share a
Location label, and the i-th allocating node receives label `#(i-1)`. -/
theorem claim_C7_label_allocation (path : String) (source : List Nat)
    (schema : List Entry) (tree : SNode) (out : List TrapEntry)
    (hok : extract path source schema tree = Except.ok out) :
    newNormals out = labelRange (-1) (emitCountRoot (build_schema_lookup schema) tree) ∧
    newLocs out = labelRange (-1) (emitCountRoot (build_schema_lookup schema) tree) ∧
    (newNormals out).Nodup ∧ (newLocs out).Nodup := by
  unfold extract at hok
  rcases ht : traverse tree (initState path source schema) with e | stf <;> rw [ht] at hok
  · exact Except.noConfusion hok
  · have hout := Except.ok.inj hok
    have h := traverse_counts tree (initState path source schema) stf ht
    obtain ⟨_, _, _, _, _, d, htr, hn, hl⟩ := h
    subst hout
    have hcomment : newNormals (initState path source schema).trap_output = [] := rfl
    have hcomment2 : newLocs (initState path source schema).trap_output = [] := rfl
    rw [htr, newNormals_append, newLocs_append, hcomment, hcomment2, List.nil_append,
      List.nil_append, hn, hl]
    refine ⟨rfl, rfl, labelRange_nodup _ _, labelRange_nodup _ _⟩

/-- Witness for C7: the two-leaf `pair` tree allocates labels `0, 1, 2` in
order, with no repetitions in either namespace. -/
theorem claim_C7_label_allocation_witness :
    ∃ out, extract "f.rs" [97, 98] sampleSchema samplePair = Except.ok out ∧
      newNormals out = [0, 1, 2] ∧ newLocs out = [0, 1, 2] ∧
      (newNormals out).Nodup ∧ (newLocs out).Nodup := by
  refine ⟨_, rfl, ?_⟩
  have h := claim_C7_label_allocation "f.rs" [97, 98] sampleSchema samplePair _ rfl
  exact ⟨h.1, h.2.1, h.2.2.1, h.2.2.2⟩

/-! ### Well-scopedness of the fact stream -/

theorem seenAfter_cons (seen : List Label) (e : TrapEntry) (xs : List TrapEntry) :
    seenAfter seen (e :: xs) = seenAfter (introducedLabels e ++ seen) xs := rfl

theorem seenAfter_append (seen : List Label) (xs ys : List TrapEntry) :
    seenAfter seen (xs ++ ys) = seenAfter (seenAfter seen xs) ys := by
  unfold seenAfter
  rw [List.foldl_append]

theorem wellScopedFrom_append (xs ys : List TrapEntry) :
    ∀ (seen : List Label), wellScopedFrom seen (xs ++ ys)
      = (wellScopedFrom seen xs && wellScopedFrom (seenAfter seen xs) ys) := by
  induction xs with
  | nil =>
    intro seen
    simp [wellScopedFrom, seenAfter]
  | cons e rest ih =>
    intro seen
    simp only [List.cons_append, wellScopedFrom, seenAfter_cons, Bool.and_assoc]
    rw [show rest.append ys = rest ++ ys from rfl, ih]

theorem mem_seenAfter {l : Label} :
    ∀ (xs : List TrapEntry) (seen : List Label), l ∈ seen → l ∈ seenAfter seen xs := by
  intro xs
  induction xs with
  | nil => intro seen h; exact h
  | cons e rest ih =>
    intro seen h
    rw [seenAfter_cons]
    exact ih _ (List.mem_append_right _ h)

theorem mem_seenAfter_of_new {l : Label} :
    ∀ (xs : List TrapEntry) (seen : List Label), TrapEntry.new l ∈ xs →
      l ∈ seenAfter seen xs := by
  intro xs
  induction xs with
  | nil => intro seen h; cases h
  | cons e rest ih =>
    intro seen h
    rw [seenAfter_cons]
    rcases List.mem_cons.mp h with rfl | h'
    · exact mem_seenAfter rest _ (by simp [introducedLabels])
    · exact ih _ h'

theorem wellScopedFrom_of_refs :
    ∀ (xs : List TrapEntry) (seen : List Label),
      (∀ e ∈ xs, ∀ l ∈ labelRefs e, l ∈ seen) → wellScopedFrom seen xs = true := by
  intro xs
  induction xs with
  | nil => intro seen _; rfl
  | cons e rest ih =>
    intro seen h
    unfold wellScopedFrom
    rw [Bool.and_eq_true]
    constructor
    · rw [List.all_eq_true]
      intro l hl
      rw [decide_eq_true_eq]
      exact h e (List.mem_cons_self e rest) l hl
    · exact ih _ (fun e' he' l hl =>
        List.mem_append_right _ (h e' (List.mem_cons_of_mem e he') l hl))

theorem lookupA_insertA_cases {K V : Type} [DecidableEq K] {k k' : K} {v w : V} :
    ∀ {m : List (K × V)}, lookupA k (insertA k' v m) = some w →
      w = v ∨ lookupA k m = some w := by
  intro m
  induction m with
  | nil =>
    intro h
    simp only [insertA, lookupA] at h
    split at h
    · exact Or.inl (Option.some.inj h).symm
    · exact absurd h (by simp)
  | cons kv rest ih =>
    obtain ⟨k'', v''⟩ := kv
    intro h
    simp only [insertA] at h
    by_cases h2 : k' = k''
    · rw [if_pos h2] at h
      simp only [lookupA] at h
      by_cases h3 : k = k'
      · rw [if_pos h3] at h
        exact Or.inl (Option.some.inj h).symm
      · rw [if_neg h3] at h
        right
        have hne : ¬ k = k'' := fun he => h3 (he.trans h2.symm)
        simp only [lookupA]
        rw [if_neg hne]
        exact h
    · rw [if_neg h2] at h
      simp only [lookupA] at h
      by_cases h3 : k = k''
      · rw [if_pos h3] at h
        right
        simp only [lookupA]
        rw [if_pos h3]
        exact h
      · rw [if_neg h3] at h
        rcases ih h with h4 | h4
        · exact Or.inl h4
        · right
          simp only [lookupA]
          rw [if_neg h3]
          exact h4

theorem map0Of_buckets (fields : List Field) :
    ∀ (k : Option String) (f : Field) (b : List Label),
      lookupA k (map0Of fields) = some (f, b) → b = [] := by
  suffices h : ∀ (m : BucketMap),
      (∀ k f b, lookupA k m = some (f, b) → b = []) →
      ∀ k f b, lookupA k
          (fields.foldl (fun acc field => insertA field.name (field, []) acc) m)
        = some (f, b) → b = [] by
    exact h [] (by intro k f b hb; simp [lookupA] at hb)
  induction fields with
  | nil => intro m hm; exact hm
  | cons g rest ih =>
    intro m hm
    simp only [List.foldl_cons]
    apply ih
    intro k f b hb
    rcases lookupA_insertA_cases hb with h | h
    · exact (Prod.mk.injEq _ _ _ _ ▸ h).2
    · exact hm k f b h

theorem bucketStep_map_cases (path : String) (u : List (TypeName × List TypeName))
    (node : SNode) (m : BucketMap) (ds : List Diag) (cf : Option String)
    (cid : Label) (ct : TypeName) :
    (bucketStep path u node (m, ds) (cf, cid, ct)).1 = m ∨
      ∃ field values, lookupA cf m = some (field, values) ∧
        (bucketStep path u node (m, ds) (cf, cid, ct)).1
          = insertA cf (field, values ++ [cid]) m := by
  simp only [bucketStep]
  split
  · rename_i field values heq
    split
    · exact Or.inr ⟨field, values, heq, rfl⟩
    · left
      split <;> rfl
  · left
    split <;> rfl

theorem fillBuckets_buckets (path : String) (u : List (TypeName × List TypeName))
    (node : SNode) (S : List Label) :
    ∀ (cs : List (Option String × Label × TypeName)) (m : BucketMap) (ds : List Diag),
      (∀ k f b, lookupA k m = some (f, b) → ∀ l ∈ b, l ∈ S) →
      (∀ c ∈ cs, c.2.1 ∈ S) →
      ∀ k f b, lookupA k (cs.foldl (bucketStep path u node) (m, ds)).1 = some (f, b) →
        ∀ l ∈ b, l ∈ S := by
  intro cs
  induction cs with
  | nil => intro m ds hm _; exact hm
  | cons c rest ih =>
    intro m ds hm hcs
    obtain ⟨cf, cid, ct⟩ := c
    simp only [List.foldl_cons]
    refine ih (bucketStep path u node (m, ds) (cf, cid, ct)).1
      (bucketStep path u node (m, ds) (cf, cid, ct)).2 ?_
      (fun c hc => hcs c (List.mem_cons_of_mem _ hc))
    rcases bucketStep_map_cases path u node m ds cf cid ct with h | ⟨field, values, hl, h⟩
    · rw [h]
      exact hm
    · rw [h]
      intro k f b hb l hlb
      rcases lookupA_insertA_cases hb with h2 | h2
      · have hfb : f = field ∧ b = values ++ [cid] := by
          have := Prod.mk.injEq f b field (values ++ [cid]) ▸ h2
          exact this
        rcases List.mem_append.mp (hfb.2 ▸ hlb) with h3 | h3
        · exact hm cf field values hl l h3
        · rw [List.mem_singleton] at h3
          subst h3
          exact hcs (cf, l, ct) (List.mem_cons_self _ _)
      · exact hm k f b h2 l hlb

theorem finalBuckets_sub (st : VState) (node : SNode) (fields : List Field)
    (frame : List (Option String × Label × TypeName)) (f : Field) :
    ∀ l ∈ bucketIds (finalBuckets st node fields frame) f,
      l ∈ frame.map (fun t => t.2.1) := by
  intro l hl
  unfold bucketIds at hl
  rcases hlk : lookupA f.name (finalBuckets st node fields frame) with _ | fv
  · rw [hlk] at hl
    simp at hl
  · rw [hlk] at hl
    simp only at hl
    obtain ⟨f2, b⟩ := fv
    unfold finalBuckets fillBuckets at hlk
    exact fillBuckets_buckets st.path st.union_types node
      (frame.map (fun t => t.2.1)) frame (map0Of fields) []
      (fun k g b2 hb l2 hl2 => by simp [map0Of_buckets fields k g b2 hb] at hl2)
      (fun c hc => List.mem_map_of_mem _ hc)
      f.name f2 b hlk l hl

theorem fieldArgs_labels (m : BucketMap) (fields : List Field) :
    ∀ l ∈ argLabels (fieldArgs m fields), ∃ f ∈ fields, l ∈ bucketIds m f := by
  intro l hl
  unfold argLabels at hl
  rw [List.mem_filterMap] at hl
  obtain ⟨a, ha, hla⟩ := hl
  unfold fieldArgs at ha
  rw [List.mem_filterMap] at ha
  obtain ⟨f, hf, hfa⟩ := ha
  refine ⟨f, hf, ?_⟩
  rcases hstor : f.storage with _ | ⟨p, i⟩
  · rw [hstor] at hfa
    rcases hb : bucketIds m f with _ | ⟨cid, _ | ⟨cid2, tl⟩⟩ <;> rw [hb] at hfa
    · simp at hfa
    · have ha2 : a = Arg.label cid := (Option.some.inj hfa).symm
      subst ha2
      have hlc : cid = l := by simpa using hla
      subst hlc
      exact List.mem_singleton_self _
    · simp at hfa
  · rw [hstor] at hfa
    simp at hfa

theorem sliced_source_arg_str (source : List Nat) (n : SNode) (arg : Arg)
    (h : sliced_source_arg source n = Except.ok arg) : ∃ s, arg = Arg.str s := by
  unfold sliced_source_arg at h
  split at h
  · split at h
    · exact ⟨_, (Except.ok.inj h).symm⟩
    · exact Except.noConfusion h
  · exact Except.noConfusion h

theorem fieldLinks_refs (node : SNode) (pid : Label) (m : BucketMap)
    (fields : List Field) :
    ∀ e ∈ fieldLinks node pid m fields,
      ∃ f ∈ fields, ∃ cid ∈ bucketIds m f, labelRefs e = [pid, cid] := by
  intro e he
  unfold fieldLinks at he
  rw [List.mem_flatMap] at he
  obtain ⟨f, hf, he2⟩ := he
  rcases hstor : f.storage with _ | ⟨p, i⟩
  · rw [hstor] at he2
    simp at he2
  · rw [hstor] at he2
    rw [List.mem_map] at he2
    obtain ⟨cid, hcid, rfl⟩ := he2
    exact ⟨f, hf, cid, hcid, rfl⟩

theorem wsf_node_delta (S : List Label) (fp : String) (n : SNode) (id loc : Label)
    (post : List TrapEntry)
    (hpost : ∀ e ∈ post, ∀ l ∈ labelRefs e, l = id ∨ l = loc ∨ l ∈ S) :
    wellScopedFrom S ([TrapEntry.new id, TrapEntry.new loc,
      location_for fp loc n] ++ post) = true := by
  have hrest : wellScopedFrom (loc :: id :: S) post = true :=
    wellScopedFrom_of_refs post _ (fun e he l hl => by
      rcases hpost e he l hl with h | h | h
      · subst h
        exact List.mem_cons_of_mem _ (List.mem_cons_self _ _)
      · subst h
        exact List.mem_cons_self _ _
      · exact List.mem_cons_of_mem _ (List.mem_cons_of_mem _ h))
  show wellScopedFrom S (TrapEntry.new id :: TrapEntry.new loc ::
    location_for fp loc n :: post) = true
  simp [wellScopedFrom, labelRefs, introducedLabels, location_for, argLabels, hrest]

theorem scopeInv_of (st' : VState) (trap Δ : List TrapEntry)
    (htrap : st'.trap_output = trap ++ Δ)
    (h1 : wellScopedFrom [] trap = true)
    (h2 : wellScopedFrom (seenAfter [] trap) Δ = true)
    (hstk : ∀ fr ∈ st'.stack, ∀ t ∈ fr, t.2.1 ∈ seenAfter (seenAfter [] trap) Δ) :
    ScopeInv st' := by
  constructor
  · rw [htrap, wellScopedFrom_append, h1, h2]
    rfl
  · intro fr hfr t ht
    rw [htrap, seenAfter_append]
    exact hstk fr hfr t ht

theorem enter_node_scope (node : SNode) (st : VState) (hinv : ScopeInv st) :
    ScopeInv (enter_node node st).2 := by
  unfold enter_node
  split
  · exact ⟨hinv.1, hinv.2⟩
  · split
    · exact ⟨hinv.1, hinv.2⟩
    · split
      · exact hinv
      · refine ⟨hinv.1, ?_⟩
        intro fr hfr t ht
        rcases List.mem_cons.mp hfr with rfl | h
        · cases ht
        · exact hinv.2 fr h t ht

theorem leave_node_scope (fn : Option String) (node : SNode) (st st' : VState)
    (hok : leave_node fn node st = Except.ok st') (hinv : ScopeInv st) :
    ScopeInv st' := by
  unfold leave_node at hok
  by_cases hsk : (node.isExt || node.isErr || node.isMiss) = true
  · rw [if_pos hsk] at hok
    have hst := Except.ok.inj hok
    subst hst
    exact hinv
  · rw [if_neg hsk] at hok
    rcases hstk : st.stack with _ | ⟨frame, rest⟩
    · rw [hstk] at hok
      exact Except.noConfusion hok
    · rw [hstk] at hok
      have hframes := hinv.2
      rw [hstk] at hframes
      rcases hlook : lookupA node.typeName st.tables with _ | entry
      · rw [hlook] at hok
        have hst := Except.ok.inj hok
        subst hst
        refine ⟨hinv.1, ?_⟩
        intro fr hfr t ht
        exact hframes fr (List.mem_cons_of_mem _ hfr) t ht
      · rcases entry with ⟨tn, fields⟩ | ⟨tn, members⟩
        · rw [hlook] at hok
          rcases hinc : inc_i32 st.counter with e | c
          · rw [hinc] at hok
            exact Except.noConfusion hok
          · rw [hinc] at hok
            simp only [except_bind_ok] at hok
            by_cases hfe : fields.isEmpty
            · rw [if_pos hfe] at hok
              rcases hsl : sliced_source_arg st.source node with e2 | arg
              · rw [hsl] at hok
                exact Except.noConfusion hok
              · rw [hsl] at hok
                simp only [except_bind_ok] at hok
                obtain ⟨s, rfl⟩ := sliced_source_arg_str _ _ _ hsl
                rcases hr : rest with _ | ⟨parentF, rest2⟩
                · rw [hr] at hok
                  have hst := Except.ok.inj hok
                  subst hst
                  refine scopeInv_of _ st.trap_output
                    ([TrapEntry.new (Label.normal c), TrapEntry.new (Label.location c),
                      location_for st.path (Label.location c) node] ++
                     [TrapEntry.definition (node_type_name node.kind node.named)
                       (Label.normal c) [Arg.str s] (Label.location c)])
                    (by simp [List.append_assoc]) hinv.1 ?_ ?_
                  · refine wsf_node_delta _ _ _ _ _ _ ?_
                    intro e he l hl
                    rw [List.mem_singleton] at he
                    subst he
                    simp only [labelRefs, argLabels, List.filterMap, List.nil_append] at hl
                    rcases List.mem_cons.mp hl with h | h
                    · exact Or.inl h
                    · rw [List.mem_singleton] at h
                      exact Or.inr (Or.inl h)
                  · intro fr hfr t ht
                    cases hfr
                · rw [hr] at hok
                  have hst := Except.ok.inj hok
                  subst hst
                  rw [hr] at hframes
                  refine scopeInv_of _ st.trap_output
                    ([TrapEntry.new (Label.normal c), TrapEntry.new (Label.location c),
                      location_for st.path (Label.location c) node] ++
                     [TrapEntry.definition (node_type_name node.kind node.named)
                       (Label.normal c) [Arg.str s] (Label.location c)])
                    (by simp [List.append_assoc]) hinv.1 ?_ ?_
                  · refine wsf_node_delta _ _ _ _ _ _ ?_
                    intro e he l hl
                    rw [List.mem_singleton] at he
                    subst he
                    simp only [labelRefs, argLabels, List.filterMap, List.nil_append] at hl
                    rcases List.mem_cons.mp hl with h | h
                    · exact Or.inl h
                    · rw [List.mem_singleton] at h
                      exact Or.inr (Or.inl h)
                  · intro fr hfr t ht
                    rcases List.mem_cons.mp hfr with rfl | hfr2
                    · rcases List.mem_append.mp ht with h | h
                      · exact mem_seenAfter _ _
                          (hframes parentF
                            (List.mem_cons_of_mem _ (List.mem_cons_self _ _)) t h)
                      · rw [List.mem_singleton] at h
                        subst h
                        exact mem_seenAfter_of_new _ _
                          (List.mem_append_left _ (List.mem_cons_self _ _))
                    · exact mem_seenAfter _ _
                        (hframes fr
                          (List.mem_cons_of_mem _ (List.mem_cons_of_mem _ hfr2)) t ht)
            · rw [if_neg hfe] at hok
              simp only [except_bind_ok, except_pure_bind, pure] at hok
              rw [complex_node_spec] at hok
              set M := finalBuckets
                { st with
                  counter := c
                  stack := rest
                  trap_output := st.trap_output ++
                    [TrapEntry.new (Label.normal c), TrapEntry.new (Label.location c),
                     location_for st.path (Label.location c) node] }
                node fields frame with hMdef
              have hbuck : ∀ (f : Field) (l : Label), l ∈ bucketIds M f →
                  l ∈ seenAfter [] st.trap_output := by
                intro f l hl
                have hmem := finalBuckets_sub _ node fields frame f l (hMdef ▸ hl)
                rw [List.mem_map] at hmem
                obtain ⟨t, ht, hteq⟩ := hmem
                exact hteq ▸ hframes frame (List.mem_cons_self _ _) t ht
              have hpostlinks : ∀ e ∈ fieldLinks node (Label.normal c) M fields,
                  ∀ l ∈ labelRefs e,
                    l = Label.normal c ∨ l = Label.location c ∨
                      l ∈ seenAfter [] st.trap_output := by
                intro e he l hl
                obtain ⟨f, hf, cid, hcid, hrefs⟩ := fieldLinks_refs _ _ _ _ e he
                rw [hrefs] at hl
                rcases List.mem_cons.mp hl with h | h
                · exact Or.inl h
                · rw [List.mem_singleton] at h
                  subst h
                  exact Or.inr (Or.inr (hbuck f l hcid))
              by_cases hv : fieldsValid M fields
              · rw [if_pos hv] at hok
                rcases hr : rest with _ | ⟨parentF, rest2⟩
                · rw [hr] at hok
                  have hst := Except.ok.inj hok
                  subst hst
                  refine scopeInv_of _ st.trap_output
                    ([TrapEntry.new (Label.normal c), TrapEntry.new (Label.location c),
                      location_for st.path (Label.location c) node] ++
                     (fieldLinks node (Label.normal c) M fields ++
                      [TrapEntry.definition (node_type_name node.kind node.named)
                        (Label.normal c) (fieldArgs M fields) (Label.location c)]))
                    (by simp [List.append_assoc]) hinv.1 ?_ ?_
                  · refine wsf_node_delta _ _ _ _ _ _ ?_
                    intro e he l hl
                    rcases List.mem_append.mp he with h | h
                    · exact hpostlinks e h l hl
                    · rw [List.mem_singleton] at h
                      subst h
                      simp only [labelRefs] at hl
                      rcases List.mem_cons.mp hl with h2 | h2
                      · exact Or.inl h2
                      · rcases List.mem_append.mp h2 with h3 | h3
                        · obtain ⟨f, hf, h4⟩ := fieldArgs_labels M fields l h3
                          exact Or.inr (Or.inr (hbuck f l h4))
                        · rw [List.mem_singleton] at h3
                          exact Or.inr (Or.inl h3)
                  · intro fr hfr t ht
                    cases hfr
                · rw [hr] at hok
                  have hst := Except.ok.inj hok
                  subst hst
                  rw [hr] at hframes
                  refine scopeInv_of _ st.trap_output
                    ([TrapEntry.new (Label.normal c), TrapEntry.new (Label.location c),
                      location_for st.path (Label.location c) node] ++
                     (fieldLinks node (Label.normal c) M fields ++
                      [TrapEntry.definition (node_type_name node.kind node.named)
                        (Label.normal c) (fieldArgs M fields) (Label.location c)]))
                    (by simp [List.append_assoc]) hinv.1 ?_ ?_
                  · refine wsf_node_delta _ _ _ _ _ _ ?_
                    intro e he l hl
                    rcases List.mem_append.mp he with h | h
                    · exact hpostlinks e h l hl
                    · rw [List.mem_singleton] at h
                      subst h
                      simp only [labelRefs] at hl
                      rcases List.mem_cons.mp hl with h2 | h2
                      · exact Or.inl h2
                      · rcases List.mem_append.mp h2 with h3 | h3
                        · obtain ⟨f, hf, h4⟩ := fieldArgs_labels M fields l h3
                          exact Or.inr (Or.inr (hbuck f l h4))
                        · rw [List.mem_singleton] at h3
                          exact Or.inr (Or.inl h3)
                  · intro fr hfr t ht
                    rcases List.mem_cons.mp hfr with rfl | hfr2
                    · rcases List.mem_append.mp ht with h | h
                      · exact mem_seenAfter _ _
                          (hframes parentF
                            (List.mem_cons_of_mem _ (List.mem_cons_self _ _)) t h)
                      · rw [List.mem_singleton] at h
                        subst h
                        exact mem_seenAfter_of_new _ _
                          (List.mem_append_left _ (List.mem_cons_self _ _))
                    · exact mem_seenAfter _ _
                        (hframes fr
                          (List.mem_cons_of_mem _ (List.mem_cons_of_mem _ hfr2)) t ht)
              · rw [if_neg hv] at hok
                rcases hr : rest with _ | ⟨parentF, rest2⟩
                · rw [hr] at hok
                  have hst := Except.ok.inj hok
                  subst hst
                  refine scopeInv_of _ st.trap_output
                    ([TrapEntry.new (Label.normal c), TrapEntry.new (Label.location c),
                      location_for st.path (Label.location c) node] ++
                     fieldLinks node (Label.normal c) M fields)
                    (by simp [List.append_assoc]) hinv.1 ?_ ?_
                  · exact wsf_node_delta _ _ _ _ _ _ hpostlinks
                  · intro fr hfr t ht
                    cases hfr
                · rw [hr] at hok
                  have hst := Except.ok.inj hok
                  subst hst
                  rw [hr] at hframes
                  refine scopeInv_of _ st.trap_output
                    ([TrapEntry.new (Label.normal c), TrapEntry.new (Label.location c),
                      location_for st.path (Label.location c) node] ++
                     fieldLinks node (Label.normal c) M fields)
                    (by simp [List.append_assoc]) hinv.1 ?_ ?_
                  · exact wsf_node_delta _ _ _ _ _ _ hpostlinks
                  · intro fr hfr t ht
                    rcases List.mem_cons.mp hfr with rfl | hfr2
                    · rcases List.mem_append.mp ht with h | h
                      · exact mem_seenAfter _ _
                          (hframes parentF
                            (List.mem_cons_of_mem _ (List.mem_cons_self _ _)) t h)
                      · rw [List.mem_singleton] at h
                        subst h
                        exact mem_seenAfter_of_new _ _
                          (List.mem_append_left _ (List.mem_cons_self _ _))
                    · exact mem_seenAfter _ _
                        (hframes fr
                          (List.mem_cons_of_mem _ (List.mem_cons_of_mem _ hfr2)) t ht)
        · rw [hlook] at hok
          have hst := Except.ok.inj hok
          subst hst
          refine ⟨hinv.1, ?_⟩
          intro fr hfr t ht
          exact hframes fr (List.mem_cons_of_mem _ hfr) t ht

mutual

/-- One enter/descend/leave cycle preserves the scoping invariant. -/
theorem visit_scope (n : SNode) : ∀ (st st' : VState),
    visit n st = Except.ok st' → ScopeInv st → ScopeInv st' := by
  intro st st' hok hinv
  rcases n with ⟨k, nm, er, mi, ex, sb, eb, sp, ep, fn2, cs⟩
  rcases Bool.eq_false_or_eq_true er with her | her <;> subst her <;>
  rcases Bool.eq_false_or_eq_true mi with hmi | hmi <;> subst hmi <;>
  rcases Bool.eq_false_or_eq_true ex with hex | hex <;> subst hex <;>
  first
  | (have hst := Except.ok.inj hok
     subst hst
     exact ⟨hinv.1, hinv.2⟩)
  | (have hok2 : (match visitList cs { st with stack := [] :: st.stack } with
        | Except.ok st2 =>
          leave_node fn2 (SNode.mk k nm false false false sb eb sp ep fn2 cs) st2
        | Except.error e => Except.error e) = Except.ok st' := hok
     rcases hv : visitList cs { st with stack := [] :: st.stack } with e | st2 <;>
       rw [hv] at hok2
     · exact Except.noConfusion hok2
     · have hinv1 : ScopeInv { st with stack := [] :: st.stack } := by
         refine ⟨hinv.1, ?_⟩
         intro fr hfr t ht
         rcases List.mem_cons.mp hfr with rfl | h
         · cases ht
         · exact hinv.2 fr h t ht
       exact leave_node_scope fn2 _ st2 st' hok2 (visitList_scope cs _ st2 hv hinv1))

/-- `visit_scope` over sibling subtrees. -/
theorem visitList_scope (ns : List SNode) : ∀ (st st' : VState),
    visitList ns st = Except.ok st' → ScopeInv st → ScopeInv st' := by
  intro st st' hok hinv
  cases ns with
  | nil =>
    have hst := Except.ok.inj hok
    subst hst
    exact hinv
  | cons n rest =>
    have hok2 : (match visit n st with
        | Except.ok st1 => visitList rest st1
        | Except.error e => Except.error e) = Except.ok st' := hok
    rcases hv : visit n st with e | st1 <;> rw [hv] at hok2
    · exact Except.noConfusion hok2
    · exact visitList_scope rest st1 st' hok2 (visit_scope n st st1 hv hinv)

end

/-- The tail of `traverse` on a skipped root preserves the scoping
invariant: the children are visited, and the root's leave is a no-op. -/
theorem traverse_skip_scope (node : SNode) (cs : List SNode) (fn : Option String)
    (st1 st' : VState)
    (hskip : (node.isExt || node.isErr || node.isMiss) = true)
    (hinv1 : ScopeInv st1)
    (hok : (match visitList cs st1 with
        | Except.ok st2 => leave_node fn node st2
        | Except.error e => Except.error e) = Except.ok st') :
    ScopeInv st' := by
  rcases hv : visitList cs st1 with e | st2 <;> rw [hv] at hok
  · exact Except.noConfusion hok
  · have hok2 : leave_node fn node st2 = Except.ok st' := hok
    rw [leave_node_skip fn node st2 hskip] at hok2
    have hst := Except.ok.inj hok2
    subst hst
    exact visitList_scope cs st1 st2 hv hinv1

/-- One full cursor-loop traversal preserves the scoping invariant. -/
theorem traverse_scope (root : SNode) (st st' : VState)
    (hok : traverse root st = Except.ok st') (hinv : ScopeInv st) : ScopeInv st' := by
  rcases root with ⟨k, nm, er, mi, ex, sb, eb, sp, ep, fn2, cs⟩
  rcases Bool.eq_false_or_eq_true er with her | her
  · subst her
    exact traverse_skip_scope (SNode.mk k nm true mi ex sb eb sp ep fn2 cs)
      cs fn2 { st with diags := st.diags ++ [Diag.parseError st.path sp.row] }
      st' (by simp [SNode.isExt, SNode.isErr]) ⟨hinv.1, hinv.2⟩ hok
  · subst her
    rcases Bool.eq_false_or_eq_true mi with hmi | hmi
    · subst hmi
      exact traverse_skip_scope (SNode.mk k nm false true ex sb eb sp ep fn2 cs)
        cs fn2 { st with diags := st.diags ++ [Diag.missingToken st.path sp.row k] }
        st' (by simp [SNode.isExt, SNode.isErr, SNode.isMiss]) ⟨hinv.1, hinv.2⟩ hok
    · subst hmi
      rcases Bool.eq_false_or_eq_true ex with hex | hex
      · subst hex
        exact traverse_skip_scope (SNode.mk k nm false false true sb eb sp ep fn2 cs)
          cs fn2 st st' (by simp [SNode.isExt]) hinv hok
      · subst hex
        exact visit_scope (SNode.mk k nm false false false sb eb sp ep fn2 cs)
          st st' hok hinv

/-- C10: in every fact stream produced by one extraction, every label
referred to by a `RowDefinition`, `ChildLink`, or `Location` fact was
introduced by a `NewId` fact appearing strictly earlier in the stream —
including the dangling identifiers of nodes whose row definition was
suppressed, whose `NewId` facts precede any fact that can refer to them. -/
theorem claim_C10_labels_introduced_before_use (path : String) (source : List Nat)
    (schema : List Entry) (tree : SNode) (out : List TrapEntry)
    (hok : extract path source schema tree = Except.ok out) :
    wellScopedFrom [] out = true := by
  unfold extract at hok
  rcases ht : traverse tree (initState path source schema) with e | stf <;>
    rw [ht] at hok
  · exact Except.noConfusion hok
  · have hout := Except.ok.inj hok
    subst hout
    have hinv0 : ScopeInv (initState path source schema) := by
      constructor
      · rfl
      · intro fr hfr t ht2
        cases hfr
    exact (traverse_scope tree _ stf ht hinv0).1

/-- Witness for C10: the concrete two-leaf `pair` extraction produces a
well-scoped fact stream. -/
theorem claim_C10_labels_introduced_before_use_witness :
    ∃ out, extract "f.rs" [97, 98] sampleSchema samplePair = Except.ok out ∧
      wellScopedFrom [] out = true :=
  ⟨_, rfl, claim_C10_labels_introduced_before_use "f.rs" [97, 98] sampleSchema
    samplePair _ rfl⟩

end Trap
